import Mathlib

/-!
# Verification of the "missingurls" auditing tool (`app.py`)

This file gives a shallow embedding, in Lean 4, of the core of `app.py`:
the blocked-domain policy, the document-type classifier, the URL
reference extractor, the domain resolver, the (sequentialized) concurrent
domain crawler, and the URL coverage matcher, together with theorems
settling the specification claims about them.

Modelling conventions:
* Python strings are Lean `String`s; all character-level work happens on
  `List Char` (`String.data`), with the Python `str` methods
  (`lower`, `strip`, `rstrip`, `replace`, `split`, `endswith`, `in`)
  implemented explicitly below.
* Python's `re` module is modelled by a small regular-expression AST
  (`RE`), a pattern-string compiler (`parseRegex`, returning `none`
  exactly where `re.compile`/`re.search` would raise `re.error` on the
  pattern subset used by the program), and a backtracking matcher
  (`reSearch`, the model of `re.search` returning whether a match
  exists).  Laziness annotations (`*?` etc.) are accepted and treated
  like their greedy forms; this is match-existence preserving.
* `urllib.parse.urlparse`/`urlunparse` are modelled by
  `urlsplitCore`/`urlunsplitM`.  Where a call site reads
  `urlparse().path` (the classifier and the matcher's path/regex
  stages), the `;params` split is reproduced exactly (`parsePath`);
  `_normalize_url` and `_is_valid_url` keep the `params` text inside
  `path`, which is behaviour-preserving for the claims below (the
  idempotence claim C7 is accordingly restricted to `;`-free paths).
  The `ValueError` raised on mismatched `[`/`]` in a netloc is
  modelled by the `Option`-valued `urlsplitChecked`; CPython's further
  netloc validation (invalid matched-bracket hosts, NFKC-unsafe
  non-ASCII netlocs) is not reproduced — claims whose conclusions
  need a successful or non-raising parse carry a `parseSafe`
  hypothesis (ASCII, bracket-free input), on which that validation is
  provably inert, and at `try/except` sites the unmodelled errors only
  drive the source to the fallback the claims conclude.
* Threaded execution in the crawler is sequentialized: batches of one
  depth level run one after the other (a representative interleaving);
  the `fetch` side effect is an explicit function parameter.
* Python values of unknown type (for `isinstance` checks) are modelled
  by the inductive `PyVal`.
-/

set_option maxRecDepth 10000

/-! ## Character and list-of-char primitives (models of `str` methods) -/

/-- Python whitespace (`str.strip()` default set, `\s` for ASCII). -/
def isSpaceC (c : Char) : Bool :=
  c = ' ' || c = '\t' || c = '\n' || c = '\x0d' || c = '\x0b' || c = '\x0c'

/-- ASCII lowercase of a character (`str.lower` on ASCII input). -/
def lowerC (c : Char) : Char :=
  if 'A' ≤ c ∧ c ≤ 'Z' then Char.ofNat (c.toNat + 32) else c

/-- `str.lower` (ASCII). -/
def lowerL (l : List Char) : List Char := l.map lowerC

/-- ASCII letter. -/
def isAlphaC (c : Char) : Bool :=
  ('a' ≤ c ∧ c ≤ 'z') || ('A' ≤ c ∧ c ≤ 'Z')

/-- ASCII digit. -/
def isDigitC (c : Char) : Bool := '0' ≤ c ∧ c ≤ '9'

/-- Regex word character (`\w` for ASCII): letter, digit or underscore. -/
def isWordC (c : Char) : Bool := isAlphaC c || isDigitC c || c = '_'

/-- Does list `l` start with list `p`? (model of `str.startswith`). -/
def startsWithL : List Char → List Char → Bool
  | _, [] => true
  | [], _ :: _ => false
  | c :: cs, p :: ps => c = p && startsWithL cs ps

/-- Does list `l` end with list `p`? (model of `str.endswith`). -/
def endsWithL (l p : List Char) : Bool := startsWithL l.reverse p.reverse

/-- Substring containment (model of Python's `p in s`). -/
def containsSub : List Char → List Char → Bool
  | l, p =>
    if startsWithL l p then true
    else match l with
      | [] => false
      | _ :: t => containsSub t p

/-- `str.strip()` from the left. -/
def ltrimL (l : List Char) : List Char := l.dropWhile isSpaceC

/-- `str.strip()`: drop leading and trailing whitespace. -/
def trimL (l : List Char) : List Char :=
  ((ltrimL l).reverse.dropWhile isSpaceC).reverse

/-- `str.rstrip(cs)`: drop trailing characters belonging to `cs`. -/
def rstripL (cs : List Char) (l : List Char) : List Char :=
  (l.reverse.dropWhile (· ∈ cs)).reverse

theorem dropWhile_length_le (p : Char → Bool) (l : List Char) :
    (l.dropWhile p).length ≤ l.length := by
  induction l with
  | nil => simp
  | cons c cs ih =>
    by_cases h : p c <;> simp [List.dropWhile, h] <;> omega

theorem takeWhile_length_le (p : Char → Bool) (l : List Char) :
    (l.takeWhile p).length ≤ l.length := by
  induction l with
  | nil => simp
  | cons c cs ih =>
    by_cases h : p c <;> simp [List.takeWhile, h] <;> omega

/-- Helper of `replaceAll`: while `skip > 0` the character belongs to
an already-replaced occurrence and is dropped. -/
def replaceAllGo (pat rep : List Char) : Nat → List Char → List Char
  | _, [] => []
  | skip + 1, _ :: cs => replaceAllGo pat rep skip cs
  | 0, c :: cs =>
    if pat ≠ [] ∧ startsWithL (c :: cs) pat then
      rep ++ replaceAllGo pat rep (pat.length - 1) cs
    else
      c :: replaceAllGo pat rep 0 cs

/-- `str.replace(pat, rep)` for a non-empty pattern: replace every
non-overlapping occurrence, left to right. -/
def replaceAll (pat rep : List Char) (l : List Char) : List Char :=
  replaceAllGo pat rep 0 l

/-- `s.split(sep)[0]`-style: the part of `l` before the first `c`
(`l` itself when `c` is absent). -/
def beforeChar (c : Char) (l : List Char) : List Char :=
  l.takeWhile (· ≠ c)

/-- The part of `l` after the first `c` (empty when `c` is absent;
callers never distinguish "absent" from "present with empty rest"). -/
def afterChar (c : Char) (l : List Char) : List Char :=
  (l.dropWhile (· ≠ c)).drop 1

/-- Helper of `splitAmp` (accumulator in reverse). -/
def splitAmpGo (acc : List Char) : List Char → List (List Char)
  | [] => [acc.reverse]
  | c :: cs =>
    if c = '&' then acc.reverse :: splitAmpGo [] cs
    else splitAmpGo (c :: acc) cs

/-- `str.split('&')`. -/
def splitAmp (l : List Char) : List (List Char) := splitAmpGo [] l

/-- `'&'.join`. -/
def joinAmp : List (List Char) → List Char
  | [] => []
  | [x] => x
  | x :: y :: t => x ++ '&' :: joinAmp (y :: t)

/-- First-occurrence-preserving deduplication (model of `list(set(_))`
where only membership matters to the claims below). -/
def dedupL : List String → List String
  | [] => []
  | x :: t => if x ∈ t then dedupL t else x :: dedupL t

/-! ## Model of Python's `re` module (the pattern subset used by `app.py`)

`RE` is the abstract syntax of the regexes the program ever feeds to
`re.search`.  `parseRegex` compiles a pattern string, returning `none`
exactly where `re.compile` raises `re.error` (e.g. a dangling
quantifier such as the pattern `?:foo`, or an unbalanced parenthesis
such as `a)|(b`).  `mtch` is a complete backtracking matcher: it
returns every pair (last consumed character, remaining suffix) of a
match of the regex at the start of the input; `reSearch` tries every
start position, which is `re.search`-existence. -/

/-- One alternative inside a character class `[...]`. -/
inductive CAtom where
  | ch (c : Char)
  | rng (a b : Char)
  | spc
  | dig
  | wrd
  deriving DecidableEq, Repr

/-- Regex abstract syntax. -/
inductive RE where
  | emp
  | dot
  | lit (c : Char)
  | cls (neg : Bool) (atoms : List CAtom)
  | seq (a b : RE)
  | alt (a b : RE)
  | star (r : RE)
  | bnd
  | bos
  | eos
  | nla (r : RE)
  deriving DecidableEq, Repr

/-- Does character class atom `a` admit character `c`? -/
def catomMatch (a : CAtom) (c : Char) : Bool :=
  match a with
  | .ch d => c = d
  | .rng x y => x ≤ c ∧ c ≤ y
  | .spc => isSpaceC c
  | .dig => isDigitC c
  | .wrd => isWordC c

/-- Does the class (with negation flag) admit `c`? -/
def clsMatch (neg : Bool) (atoms : List CAtom) (c : Char) : Bool :=
  if neg then !(atoms.any (catomMatch · c)) else atoms.any (catomMatch · c)

/-- Is an `Option Char` (the character to the left of the current
position, `none` at the very start) a word character? -/
def isWordO : Option Char → Bool
  | none => false
  | some c => isWordC c

/-- Head-of-remaining-input word-character test. -/
def isWordHd : List Char → Bool
  | [] => false
  | c :: _ => isWordC c

/-- Iterate a single-step matcher for `star`: returns the states
reachable by zero or more strictly-consuming repetitions (Python's
`*` never repeats an empty match in place, so only strictly shorter
remainders are iterated; `fuel` starts at `length + 1`). -/
def starIter (f : Option Char × List Char → List (Option Char × List Char)) :
    Nat → Option Char × List Char → List (Option Char × List Char)
  | 0, s => [s]
  | n + 1, s =>
    s :: ((f s).filter (fun r => r.2.length < s.2.length)).flatMap
      (fun r => starIter f n r)

/-- The backtracking matcher: all (previous character, remaining input)
states after matching `r` at the start of `l`, with `p` the character
immediately to the left of `l` in the search subject. -/
def mtch : RE → Option Char → List Char → List (Option Char × List Char)
  | .emp, p, l => [(p, l)]
  | .dot, _, l =>
    match l with
    | [] => []
    | c :: cs => if c = '\n' then [] else [(some c, cs)]
  | .lit c, _, l =>
    match l with
    | [] => []
    | x :: xs => if x = c then [(some x, xs)] else []
  | .cls neg atoms, _, l =>
    match l with
    | [] => []
    | x :: xs => if clsMatch neg atoms x then [(some x, xs)] else []
  | .seq a b, p, l => (mtch a p l).flatMap (fun s => mtch b s.1 s.2)
  | .alt a b, p, l => mtch a p l ++ mtch b p l
  | .star r, p, l => starIter (fun s => mtch r s.1 s.2) (l.length + 1) (p, l)
  | .bnd, p, l => if isWordO p ≠ isWordHd l then [(p, l)] else []
  | .bos, p, l => if p = none then [(p, l)] else []
  | .eos, p, l =>
    match l with
    | [] => [(p, l)]
    | ['\n'] => [(p, l)]
    | _ => []
  | .nla r, p, l => if (mtch r p l).isEmpty then [(p, l)] else []

/-- Search driver: try a match at every position of `l`, threading the
character to the left of the current position. -/
def searchA (r : RE) (p : Option Char) (l : List Char) : Bool :=
  match l with
  | [] => !(mtch r p []).isEmpty
  | c :: cs => !(mtch r p (c :: cs)).isEmpty || searchA r (some c) cs

/-- Model of `re.search(r, l) is not None`. -/
def reSearch (r : RE) (l : List Char) : Bool := searchA r none l

/-- Escapes usable inside a character class. -/
def escC (e : Char) : CAtom :=
  if e = 's' then .spc
  else if e = 'd' then .dig
  else if e = 'w' then .wrd
  else if e = 'b' then .ch '\x08'
  else .ch e

/-- Parse the body of a character class (after `[` and the optional
`^`), up to and including the closing `]`. -/
def parseClsAtoms : Nat → List Char → Option (List CAtom × List Char)
  | 0, _ => none
  | _ + 1, [] => none
  | _ + 1, ']' :: t => some ([], t)
  | f + 1, '\\' :: t =>
    match t with
    | [] => none
    | e :: t2 => do
      let (as, rest) ← parseClsAtoms f t2
      return (escC e :: as, rest)
  | f + 1, c :: t =>
    match t with
    | '-' :: d :: t2 =>
      if d = ']' then do
        let (as, rest) ← parseClsAtoms f t
        return (.ch c :: as, rest)
      else do
        let (as, rest) ← parseClsAtoms f t2
        return (.rng c d :: as, rest)
    | _ => do
      let (as, rest) ← parseClsAtoms f t
      return (.ch c :: as, rest)

/-- Parse a whole character class (after the opening `[`); a leading
`]` (after the optional `^`) is a literal, as in Python. -/
def parseClsFull (l : List Char) : Option (RE × List Char) :=
  let (neg, l1) :=
    match l with
    | '^' :: t => (true, t)
    | _ => (false, l)
  match l1 with
  | ']' :: t => do
    let (as, rest) ← parseClsAtoms (t.length + 1) t
    return (RE.cls neg (.ch ']' :: as), rest)
  | _ => do
    let (as, rest) ← parseClsAtoms (l1.length + 1) l1
    return (RE.cls neg as, rest)

/-- Escapes usable outside a character class (`none` models `re.error`
or an escape outside the modelled subset). -/
def escRE (e : Char) : Option RE :=
  if e = 's' then some (.cls false [.spc])
  else if e = 'S' then some (.cls true [.spc])
  else if e = 'd' then some (.cls false [.dig])
  else if e = 'D' then some (.cls true [.dig])
  else if e = 'w' then some (.cls false [.wrd])
  else if e = 'W' then some (.cls true [.wrd])
  else if e = 'b' then some .bnd
  else if e = 'A' ∨ e = 'Z' ∨ e = 'B' ∨ isDigitC e then none
  else some (.lit e)

/-- After an atom and one quantifier: an optional lazy `?` marker
(laziness is match-existence preserving, so it yields the same `RE`),
then any further quantifier is `re.error` (`a**`, `a*??`, ...). -/
def quantTail (r : RE) (t : List Char) : Option (RE × List Char) :=
  let t2 := if startsWithL t ['?'] then t.drop 1 else t
  match t2 with
  | '*' :: _ => none
  | '+' :: _ => none
  | '?' :: _ => none
  | _ => some (r, t2)

mutual

/-- Alternation level of the pattern grammar. -/
def parseAltRE : Nat → List Char → Option (RE × List Char)
  | 0, _ => none
  | f + 1, l => do
    let (r, rest) ← parseSeqRE f l
    match rest with
    | '|' :: t =>
      let (r2, rest2) ← parseAltRE f t
      return (.alt r r2, rest2)
    | _ => return (r, rest)

/-- Concatenation level of the pattern grammar. -/
def parseSeqRE : Nat → List Char → Option (RE × List Char)
  | 0, _ => none
  | f + 1, l =>
    match l with
    | [] => some (.emp, [])
    | c :: _ =>
      if c = ')' ∨ c = '|' then some (.emp, l)
      else do
        let (r, rest) ← parseAtomQRE f l
        let (r2, rest2) ← parseSeqRE f rest
        return (.seq r r2, rest2)

/-- One atom with its optional quantifier. -/
def parseAtomQRE : Nat → List Char → Option (RE × List Char)
  | 0, _ => none
  | f + 1, l => do
    let (r, rest) ← parseAtomRE f l
    match rest with
    | '*' :: t => quantTail (.star r) t
    | '+' :: t => quantTail (.seq r (.star r)) t
    | '?' :: t => quantTail (.alt r .emp) t
    | _ => return (r, rest)

/-- One atom: group, class, escape, anchor, `.` or literal; a dangling
quantifier or stray `)`/`|` is `re.error`. -/
def parseAtomRE : Nat → List Char → Option (RE × List Char)
  | 0, _ => none
  | f + 1, l =>
    match l with
    | [] => none
    | c :: t =>
      if c = '(' then
        if startsWithL t ['?', ':'] then do
          let (r, rest) ← parseAltRE f (t.drop 2)
          match rest with
          | ')' :: t2 => return (r, t2)
          | _ => none
        else if startsWithL t ['?', '!'] then do
          let (r, rest) ← parseAltRE f (t.drop 2)
          match rest with
          | ')' :: t2 => return (.nla r, t2)
          | _ => none
        else if startsWithL t ['?'] then none
        else do
          let (r, rest) ← parseAltRE f t
          match rest with
          | ')' :: t2 => return (r, t2)
          | _ => none
      else if c = '[' then parseClsFull t
      else if c = '\\' then
        match t with
        | [] => none
        | e :: t2 => (escRE e).map (fun r => (r, t2))
      else if c = '.' then some (.dot, t)
      else if c = '^' then some (.bos, t)
      else if c = '$' then some (.eos, t)
      else if c = '*' ∨ c = '+' ∨ c = '?' ∨ c = ')' ∨ c = '|' then none
      else some (.lit c, t)

end

/-- Model of `re.compile` on the pattern subset used by the program:
`none` is `re.error`. -/
def parseRegex (pat : List Char) : Option RE :=
  match parseAltRE (4 * pat.length + 16) pat with
  | some (r, []) => some r
  | _ => none

/-- `re.search(pat, subj)` under `try/except re.error`: `none` is the
exception, `some b` tells whether a match exists. -/
def reSearchStr (pat subj : List Char) : Option Bool :=
  (parseRegex pat).map (fun r => reSearch r subj)

/-! ## Model of `urllib.parse.urlparse` / `urlunparse`

`urlsplitCore` returns `(scheme, netloc, path, query, fragment)`; the
`params` component of `urlparse` is left inside `path`, which preserves
the behaviour of every use in the program (only `.path`, `.netloc`,
`.scheme`, `.query`, `.fragment` and reassembly are used, and the
`;params` text travels unchanged through them — see file header).
The fragment is split at the first `#`; this is equivalent to
CPython's split order because `#` can belong to neither a scheme nor
a netloc.  A scheme is recognised before the first `:` when that
prefix is non-empty, starts with an ASCII letter and consists of
scheme characters, as in CPython; it is lowercased. -/

/-- CPython scheme characters. -/
def isSchemeC (c : Char) : Bool :=
  isAlphaC c || isDigitC c || c = '+' || c = '-' || c = '.'

/-- Split the scheme from a URL (CPython `urlsplit` step). -/
def schemeSplit (l : List Char) : List Char × List Char :=
  let pre := beforeChar ':' l
  if pre.length < l.length ∧ pre ≠ [] ∧ isAlphaC (pre.headD ' ') ∧
     pre.all isSchemeC then
    (lowerL pre, l.drop (pre.length + 1))
  else
    ([], l)

/-- CPython `urlsplit` preprocessing: strip leading C0-control/space
characters, then remove every tab, carriage return and newline. -/
def urlPre (l : List Char) : List Char :=
  (l.dropWhile (fun c => c.toNat ≤ 32)).filter
    (fun c => ¬ (c = '\t' ∨ c = '\x0d' ∨ c = '\n'))

/-- Model of `urlparse`: `(scheme, netloc, path, query, fragment)`. -/
def urlsplitCore (l0 : List Char) :
    List Char × List Char × List Char × List Char × List Char :=
  let l := urlPre l0
  let u1 := beforeChar '#' l
  let frag := afterChar '#' l
  let (scheme, rest) := schemeSplit u1
  let (netloc, rest2) :=
    if startsWithL rest ['/', '/'] then
      ((rest.drop 2).takeWhile (fun c => ¬ (c = '/' ∨ c = '?' ∨ c = '#')),
       (rest.drop 2).dropWhile (fun c => ¬ (c = '/' ∨ c = '?' ∨ c = '#')))
    else
      ([], rest)
  let path := beforeChar '?' rest2
  let query := afterChar '?' rest2
  (scheme, netloc, path, query, frag)

/-- `urlsplitChecked` models `urlparse` at call sites wrapped in
`try/except`: `none` models the `ValueError` raised on a netloc with
mismatched `[`/`]`.  CPython's `urlsplit` can additionally raise on a
netloc with *matched* brackets whose bracketed host is not a valid
IPv6/IPvFuture address (current releases) and on a non-ASCII netloc
that is unsafe under NFKC normalization (since 3.6.9); those two
checks depend on `ipaddress`/`unicodedata` and are not reproduced
here.  Both are inert on bracket-free ASCII input (`_checknetloc`
returns immediately on an ASCII netloc, and the bracket checks need a
bracket), which the predicate `parseSafe` below captures: every claim
whose conclusion requires a *successful* parse carries a `parseSafe`
hypothesis, while at `try/except` call sites whose claims conclude a
rejection or absence, the unmodelled `ValueError`s only drive the
source to the very fallback those claims conclude. -/
def urlsplitChecked (l : List Char) :
    Option (List Char × List Char × List Char × List Char × List Char) :=
  let r := urlsplitCore l
  if containsSub r.2.1 ['['] ≠ containsSub r.2.1 [']'] then none else some r

/-- Characters on which CPython's netloc validation is inert: ASCII and
not a square bracket.  A URL made of such characters cannot make
`urlparse` raise (see `urlsplitChecked`). -/
def parseSafeC (c : Char) : Bool := c.toNat < 128 && c ≠ '[' && c ≠ ']'

/-- `parseSafe l`: no character of `l` can trigger CPython's netloc
validation, so `urlparse` returns normally and `urlsplitCore` (and
`urlsplitChecked`, which then always returns `some`) model it
exactly. -/
def parseSafe (l : List Char) : Bool := l.all parseSafeC

/-- CPython `uses_netloc` (the schemes that get a `//` marker back even
with an empty netloc; the leading `''` entry is unreachable because the
`scheme and ...` guard already excludes an empty scheme). -/
def usesNetloc : List String :=
  ["", "ftp", "http", "gopher", "nntp", "telnet", "imap", "wais", "file",
   "mms", "https", "shttp", "snews", "prospero", "rtsp", "rtsps", "rtspu",
   "rsync", "svn", "svn+ssh", "sftp", "nfs", "git", "git+ssh", "ws", "wss"]

/-- Model of `urlunparse` on a result with empty `params`
(CPython `urlunsplit`): the `//` marker is restored when the netloc is
non-empty, or when the scheme is a `uses_netloc` scheme and the path
does not already begin with `//`. -/
def urlunsplitM (scheme netloc path query frag : List Char) : List Char :=
  let url := path
  let url :=
    if netloc ≠ [] ∨
       (scheme ≠ [] ∧ (⟨scheme⟩ : String) ∈ usesNetloc ∧
        ¬ startsWithL url ['/', '/']) then
      let url2 := if url ≠ [] ∧ url.headD ' ' ≠ '/' then '/' :: url else url
      '/' :: '/' :: (netloc ++ url2)
    else url
  let url := if scheme ≠ [] then scheme ++ ':' :: url else url
  let url := if query ≠ [] then url ++ '?' :: query else url
  if frag ≠ [] then url ++ '#' :: frag else url

/-- CPython `uses_params`: the schemes for which `urlparse` splits a
`;params` tail off the last path segment (the `''` entry makes the
split apply to scheme-less URLs as well). -/
def usesParams : List String :=
  ["", "ftp", "hdl", "prospero", "http", "imap", "https", "shttp", "rtsp",
   "rtspu", "sip", "sips", "mms", "sftp", "tel"]

/-- Path part of CPython `_splitparams`: remove everything from the
first `;` of the last `/`-segment onward (of the whole string when it
has no `/`); a `;` before the last `/` is kept. -/
def splitParamsPath (pth : List Char) : List Char :=
  if '/' ∈ pth then
    if ';' ∈ (pth.reverse.takeWhile (· ≠ '/')).reverse then
      (pth.reverse.dropWhile (· ≠ '/')).reverse ++
        beforeChar ';' ((pth.reverse.takeWhile (· ≠ '/')).reverse)
    else pth
  else beforeChar ';' pth

/-- `urlparse(url).path`: the `urlsplit` path with the `params`
component split off for `uses_params` schemes (CPython `urlparse`;
`urlsplit().path` itself keeps the `;params` text). -/
def parsePath (scheme pth : List Char) : List Char :=
  if (⟨scheme⟩ : String) ∈ usesParams ∧ ';' ∈ pth then splitParamsPath pth
  else pth

/-! ## Embedding of `app.py`: blocked domains and the classifier

The pattern tables below are transcribed verbatim from the source
(`BLOCKED_DOMAINS`, `DocTypeClassifier.*`,
`ConcurrentDomainCrawler.EXCLUDED_*`). -/

def BLOCKED_DOMAINS : List String :=
  ["s3.amazonaws.com",
   "amazonaws.com",
   "s3-us-west-2.amazonaws.com",
   "s3-us-east-1.amazonaws.com",
   "s3-eu-west-1.amazonaws.com",
   "storage.googleapis.com",
   "blob.core.windows.net"]

def OOS_KEYWORDS_RAW : List String :=
  ["privacy policy",
   "privacy notice",
   "privacy statement",
   "terms and conditions",
   "terms of use",
   "terms of service",
   "accessibility statement",
   "accessibility",
   "legal terms",
   "legal notice",
   "legal disclaimer",
   "clinical trial",
   "clinical trials",
   "drug prescription",
   "prescription information",
   "fda correspondence",
   "safety data sheet",
   "sds",
   "recipe",
   "recipes",
   "careers",
   "career",
   "job posting",
   "job listings",
   "jobs",
   "faq",
   "faqs",
   "frequently asked questions",
   "contact us",
   "contact page",
   "contact",
   "forum",
   "forums",
   "chat",
   "live chat",
   "e commerce",
   "ecommerce",
   "shop",
   "shopping cart",
   "cart",
   "checkout",
   "login",
   "log in",
   "sign in",
   "signin",
   "signup",
   "sign up",
   "register",
   "registration",
   "account",
   "my account",
   "sitemap",
   "site map",
   "cookie policy",
   "cookie notice",
   "cookie preferences",
   "cookie settings",
   "disclaimer",
   "search",
   "404",
   "error page",
   "page not found",
   "gartner",
   "forrester",
   "idc",
   "sec filing",
   "sec filings",
   "email alert",
   "email alerts",
   "email notification",
   "email notifications",
   "alert signup",
   "alerts signup",
   "email signup",
   "rss feed",
   "rss feeds",
   "subsidiary",
   "subsidiaries",
   "credit rating",
   "credit ratings",
   "research analyst",
   "analyst report",
   "analyst reports",
   "analyst coverage",
   "research coverage",
   "broker report",
   "broker reports",
   "bank research",
   "bank report",
   "stock quote",
   "stock price",
   "stock chart",
   "stock information",
   "dividend calculator",
   "investment calculator",
   "transfer agent",
   "shareholder services",
   "unsubscribe",
   "print page",
   "print version",
   "text size",
   "font size",
   "feedback",
   "survey",
   "whistleblower",
   "hotline",
   "supplier registration",
   "vendor registration",
   "bid",
   "rfp",
   "request for proposal",
   "warranty",
   "return policy",
   "refund policy",
   "shipping policy",
   "delivery policy"]

def OOS_PATH_PATTERNS_RAW : List String :=
  ["/career",
   "/jobs",
   "/job-",
   "/contact",
   "/contact-us",
   "/faq",
   "/faqs",
   "/login",
   "/signin",
   "/sign-in",
   "/signup",
   "/sign-up",
   "/register",
   "/privacy",
   "/privacy-policy",
   "/privacy-notice",
   "/terms",
   "/tos",
   "/terms-of-use",
   "/terms-of-service",
   "/terms-and-conditions",
   "/legal",
   "/legal-notice",
   "/cookie",
   "/cookie-policy",
   "/cookie-notice",
   "/accessibility",
   "/sitemap",
   "/site-map",
   "/search",
   "/404",
   "/error",
   "/shop",
   "/cart",
   "/checkout",
   "/forum",
   "/forums",
   "/chat",
   "/account",
   "/my-account",
   "/clinical-trial",
   "/clinical-trials",
   "/sds",
   "/disclaimer",
   "/sec-filing",
   "/sec-filings",
   "/secfilings",
   "/email-alert",
   "/email-alerts",
   "/emailalerts",
   "/alert-signup",
   "/alerts",
   "/rss",
   "/rss-feed",
   "/rss-feeds",
   "/subsidiary",
   "/subsidiaries",
   "/credit-rating",
   "/credit-ratings",
   "/analyst-coverage",
   "/research-coverage",
   "/analyst-report",
   "/analyst-reports",
   "/stock-quote",
   "/stock-price",
   "/stock-chart",
   "/stock-info",
   "/dividend-calculator",
   "/investment-calculator",
   "/transfer-agent",
   "/unsubscribe",
   "/print",
   "/feedback",
   "/survey",
   "/whistleblower",
   "/supplier-registration",
   "/vendor-registration",
   "/rfp",
   "/request-for-proposal",
   "/warranty",
   "/return-policy",
   "/refund",
   "/shipping",
   "/delivery-policy",
   "/ir-calendar",
   "/webcasts",
   "/telephone",
   "/phone"]

def PDF_ONLY_KEYWORDS : List String :=
  [r"investor[\s\-_]*day[\s\-_]*presentation",
   r"earnings[\s\-_]*presentation",
   r"supplementary[\s\-_]*information",
   r"non[\s\-_]*gaap[\s\-_]*reconciliation",
   r"non[\s\-_]*ifrs[\s\-_]*measures",
   r"esg[\s\-_]*presentation",
   r"sasb[\s\-_]*presentation",
   r"letter[\s\-_]*to[\s\-_]*shareholders",
   r"roadshow[\s\-_]*presentation",
   r"agm[\s\-_]*presentation",
   r"annual[\s\-_]*general[\s\-_]*meeting[\s\-_]*presentation",
   r"annual[\s\-_]*report",
   r"integrated[\s\-_]*report",
   r"interim[\s\-_]*report",
   r"quarterly[\s\-_]*report",
   r"semi[\s\-_]*annual[\s\-_]*report",
   r"management[\s\-_]*report",
   r"management[\s\-_]*commentary",
   r"md[\s\-_]*&?[\s\-_]*a\b",
   "prox(?:y|ies)",
   r"proxy[\s\-_]*statement",
   r"contractual[\s\-_]*agreement",
   "cancellation",
   r"agm[\s\-_]*notice",
   r"egm[\s\-_]*notice",
   "reorgani[sz]ation",
   "restructur",
   r"board[\s\-_]*change",
   "appointment",
   "resignation",
   "exemption",
   "delisting",
   "suspension",
   "bankruptcy",
   "acquisition",
   "disposal",
   r"legal[\s\-_]*action",
   r"material[\s\-_]*change",
   r"late[\s\-_]*filing",
   r"regulatory[\s\-_]*correspondence",
   r"bond[\s\-_]*prospectus",
   r"fixed[\s\-_]*income[\s\-_]*prospectus",
   r"debt[\s\-_]*prospectus",
   r"prospectus[\s\-_]*general",
   r"equity[\s\-_]*prospectus",
   r"ipo[\s\-_]*prospectus",
   r"securities[\s\-_]*registration",
   r"withdrawal[\s\-_]*termination",
   r"listing[\s\-_]*application",
   r"debt[\s\-_]*indenture",
   r"credit[\s\-_]*agreement",
   r"notice[\s\-_]*of[\s\-_]*offering",
   r"pre[\s\-_]*ipo",
   r"institutional[\s\-_]*ownership",
   r"japan[\s\-_]*5",
   r"director[\s\-_]*officer[\s\-_]*ownership",
   r"beneficial[\s\-_]*ownership",
   r"capital[\s\-_]*change",
   r"stock[\s\-_]*option",
   r"tender[\s\-_]*offer",
   r"exchange[\s\-_]*offer",
   r"stock[\s\-_]*split",
   r"securities[\s\-_]*purchase",
   r"securities[\s\-_]*repurchase",
   r"securities[\s\-_]*sale",
   "merger",
   "takeover",
   r"m[\s\-_]*&?[\s\-_]*a\b",
   r"dividend(?![\s\-_]*reinvestment[\s\-_]*stock)",
   r"auditor[\s\-_]*report",
   r"change[\s\-_]*in[\s\-_]*auditor",
   r"change[\s\-_]*in[\s\-_]*year[\s\-_]*end",
   r"fund[\s\-_]*sheet",
   r"estma[\s\-_]*report",
   r"prepared[\s\-_]*remark",
   r"follow[\s\-_]*up[\s\-_]*transcript",
   r"integrated[\s\-_]*resource[\s\-_]*plan",
   r"scientific[\s\-_]*poster",
   r"scientific[\s\-_]*presentation",
   r"research[\s\-_]*publication"]

def HTML_ONLY_KEYWORDS : List String :=
  [r"blog(?:s)?[\s\-_]*(?:&|and)?[\s\-_]*insight",
   "/blog/",
   "/blogs/",
   "/insight/",
   "/insights/",
   r"about[\s\-_]*us",
   "/about/",
   r"company[\s\-_]*history",
   "/history/",
   r"mission[\s\-_]*(?:&|and)?[\s\-_]*vision",
   r"corporate[\s\-_]*information",
   r"management[\s\-_]*profile",
   r"board[\s\-_]*of[\s\-_]*director",
   "/board/",
   r"executive[\s\-_]*team",
   "/leadership/",
   "/management/",
   "/executives/",
   r"leadership[\s\-_]*committee",
   r"supplier[\s\-_]*list",
   "/suppliers/",
   r"partner[\s\-_]*list",
   "/partners/",
   r"customer[\s\-_]*list",
   "/customers/",
   r"strategic[\s\-_]*alliance",
   r"product[\s\-_]*listing",
   "/products/",
   r"feature[\s\-_]*description",
   "/features/",
   r"service[\s\-_]*listing",
   "/services/",
   r"service[\s\-_]*description",
   r"solutions[\s\-_]*overview",
   "/solutions/",
   r"service[\s\-_]*model"]

def BOTH_KEYWORDS : List String :=
  [r"press[\s\-_]*release",
   "/press-release",
   "/pressrelease",
   r"news[\s\-_]*article",
   "/news/",
   "/news-detail",
   "/news-events",
   r"company[\s\-_]*announcement",
   "/announcement",
   r"media[\s\-_]*center",
   "/media/",
   "newsroom",
   "/newsroom/",
   r"operating[\s\-_]*metric",
   r"earnings[\s\-_]*(?!presentation)",
   r"profit[\s\-_]*(?:&|and)?[\s\-_]*loss",
   r"shareholding[\s\-_]*pattern",
   r"corporate[\s\-_]*action",
   "sustainab",
   "/sustainability/",
   r"corporate[\s\-_]*social[\s\-_]*responsibility",
   r"\bcsr\b",
   r"environmental[\s\-_]*health[\s\-_]*safety",
   r"\behs\b",
   r"carbon[\s\-_]*disclosure",
   r"green[\s\-_]*report",
   r"\btcfd\b",
   r"climate[\s\-_]*risk",
   r"social[\s\-_]*report",
   r"human[\s\-_]*rights",
   r"diversity[\s\-_]*(?:&|and)?[\s\-_]*inclusion",
   r"\bgri\b",
   r"global[\s\-_]*reporting[\s\-_]*initiative",
   r"\bsasb[\s\-_]*report",
   r"\bcdp\b",
   r"carbon[\s\-_]*disclosure[\s\-_]*project",
   r"company[\s\-_]*polic",
   "/policies/",
   "/policy/",
   "charter",
   "/charter/",
   "guideline",
   "/guidelines/",
   r"code[\s\-_]*of[\s\-_]*ethics",
   "/ethics/",
   r"governance[\s\-_]*polic",
   "/governance/",
   r"corporate[\s\-_]*impact",
   r"esg[\s\-_]*report",
   r"topic[\s\-_]*specific[\s\-_]*esg",
   r"white[\s\-_]*paper",
   "/whitepaper",
   r"case[\s\-_]*stud",
   "/case-stud",
   r"industry[\s\-_]*insight",
   r"thought[\s\-_]*leadership",
   "factsheet",
   r"fact[\s\-_]*sheet",
   "factbook",
   r"fact[\s\-_]*book",
   r"product[\s\-_]*brochure",
   r"one[\s\-_]*pager",
   "speech",
   "/speeches/",
   r"executive[\s\-_]*commentary",
   r"industry[\s\-_]*trend",
   r"leadership[\s\-_]*insight",
   r"leadership[\s\-_]*interview",
   r"customer[\s\-_]*stor",
   "/customer-stories/",
   r"project[\s\-_]*update",
   r"business[\s\-_]*update",
   r"r[\s\-_]*&?[\s\-_]*d[\s\-_]*update",
   r"research[\s\-_]*(?:&|and)?[\s\-_]*development[\s\-_]*update",
   r"activity[\s\-_]*report",
   "infographic",
   r"results[\s\-_]*announcement",
   r"earnings[\s\-_]*update",
   r"revenue[\s\-_]*report",
   r"sales[\s\-_]*report",
   r"financial[\s\-_]*highlight",
   r"corporate[\s\-_]*action[\s\-_]*update",
   r"funding[\s\-_]*announcement",
   r"product[\s\-_]*launch",
   r"product[\s\-_]*specification",
   r"product[\s\-_]*spec"]

def PDF_PATH_PATTERNS : List String :=
  ["/presentation",
   "/investor-day",
   "/annual-report",
   "/interim-report",
   "/quarterly-report",
   "/proxy",
   "/prospectus",
   "/filing",
   "/regulatory",
   "/transcript",
   "/prepared-remarks",
   "/financial-report",
   "/supplemental"]

def HTML_PATH_PATTERNS : List String :=
  ["/about",
   "/team",
   "/leadership",
   "/management",
   "/board",
   "/executives",
   "/corporate-profile",
   "/company-overview",
   "/products",
   "/services",
   "/solutions",
   "/features",
   "/blog",
   "/suppliers",
   "/partners",
   "/customers"]

def BOTH_PATH_PATTERNS : List String :=
  ["/news",
   "/press",
   "/media",
   "/newsroom",
   "/announcement",
   "/sustainability",
   "/esg",
   "/governance",
   "/corporate-impact",
   "/corporate-responsibility",
   "/csr",
   "/investor",
   "/ir/",
   "/events",
   "/case-stud",
   "/whitepaper",
   "/white-paper",
   "/reports",
   "/updates",
   "/highlights"]

def EXCLUDED_EXTENSIONS : List String :=
  [".pdf",
   ".doc",
   ".docx",
   ".xls",
   ".xlsx",
   ".ppt",
   ".pptx",
   ".zip",
   ".rar",
   ".tar",
   ".gz",
   ".7z",
   ".jpg",
   ".jpeg",
   ".png",
   ".gif",
   ".bmp",
   ".svg",
   ".ico",
   ".webp",
   ".mp3",
   ".mp4",
   ".avi",
   ".mov",
   ".wmv",
   ".flv",
   ".wav",
   ".css",
   ".js",
   ".woff",
   ".woff2",
   ".ttf",
   ".eot",
   ".otf",
   ".exe",
   ".dmg",
   ".msi",
   ".apk"]

def EXCLUDED_PATH_PATTERNS : List String :=
  ["/wp-content/",
   "/wp-includes/",
   "/wp-admin/",
   "/assets/",
   "/static/",
   "/images/",
   "/img/",
   "/fonts/",
   "/css/",
   "/js/",
   "javascript:",
   "mailto:",
   "tel:",
   "/cdn-cgi/",
   "/feed/",
   "/rss/",
   "/login",
   "/logout",
   "/signup",
   "/register",
   "/cart",
   "/checkout",
   "/account",
   r"/page/\d+",
   r"\?replytocom=",
   r"/xmlrpc\.php",
   "/wp-json/"]

/-- Python values as seen by `isinstance` checks. -/
inductive PyVal where
  | str (s : String)
  | none
  | int (n : Int)
  | list (l : List PyVal)

/-- Does `v` fail `isinstance(v, str)`? -/
def PyVal.isStr : PyVal → Bool
  | .str _ => true
  | _ => false

/-- `is_blocked_domain(domain)`: `None` and `""` are falsy, hence
blocked; otherwise the lowered/stripped domain must equal a blocked
domain or end with `"." + blocked`. -/
def is_blocked_domain (domain : Option String) : Bool :=
  match domain with
  | Option.none => true
  | some d =>
    if d = "" then true
    else
      let dl : String := ⟨lowerL (trimL d.data)⟩
      BLOCKED_DOMAINS.any
        (fun blocked => dl = blocked || endsWithL dl.data ('.' :: blocked.data))

/-! ### `DocTypeClassifier._flex` and the compiled keyword table -/

/-- Separator characters of `re.split(r'[\s\-_]+', _)`. -/
def isSepFlex (c : Char) : Bool := isSpaceC c || c = '-' || c = '_'

mutual

/-- Helper of `splitFlex`: accumulate the current piece (in reverse). -/
def splitFlexGo (acc : List Char) : List Char → List (List Char)
  | [] => [acc.reverse]
  | c :: cs =>
    if isSepFlex c then acc.reverse :: splitFlexRest cs
    else splitFlexGo (c :: acc) cs

/-- Helper of `splitFlex`: the state inside a separator run. -/
def splitFlexRest : List Char → List (List Char)
  | [] => [[]]
  | c :: cs =>
    if isSepFlex c then splitFlexRest cs
    else splitFlexGo [c] cs

end

/-- `re.split(r'[\s\-_]+', l)`: split on runs of separators (empty
pieces are produced at a leading or trailing separator run, as in
Python). -/
def splitFlex (l : List Char) : List (List Char) := splitFlexGo [] l

/-- The characters escaped by Python 3.7+ `re.escape`. -/
def reEscapeSpecial : List Char :=
  ['(', ')', '[', ']', '\x7b', '\x7d', '?', '*', '+', '-', '|', '^', '$',
   '\\', '.', '&', '~', '#', ' ', '\t', '\n', '\x0d', '\x0b', '\x0c']

/-- `re.escape`. -/
def reEscape (l : List Char) : List Char :=
  l.flatMap (fun c => if c ∈ reEscapeSpecial then ['\\', c] else [c])

/-- Join pieces with a separator (for `'[\s\-_]?'.join`). -/
def joinWith (sep : List Char) : List (List Char) → List Char
  | [] => []
  | [x] => x
  | x :: y :: t => x ++ sep ++ joinWith sep (y :: t)

/-- `DocTypeClassifier._flex`: turn a phrase into the flexible
separator-tolerant pattern string. -/
def flexStr (phrase : String) : String :=
  let parts := splitFlex (trimL phrase.data)
  match parts with
  | [p] => ⟨reEscape p⟩
  | _ => ⟨joinWith "[\\s\\-_]?".data (parts.map reEscape)⟩

/-- `OOS_KEYWORDS`: the flexible patterns compiled from the raw
phrases (source line `OOS_KEYWORDS = [..._flex(kw) for kw in ...]`).
The source expresses this as
`[DocTypeClassifier._flex.__func__(kw) for kw in OOS_KEYWORDS_RAW]`
inside the class body, which in CPython raises `NameError` at class
creation (the class name is not bound yet); we embed the evident
intent, the map of `_flex` over the raw list. -/
def OOS_KEYWORDS : List String := OOS_KEYWORDS_RAW.map flexStr

/-- `OOS_PATH_PATTERNS = OOS_PATH_PATTERNS_RAW`. -/
def OOS_PATH_PATTERNS : List String := OOS_PATH_PATTERNS_RAW

/-- `re.search(kw, subj)` under `try/except re.error` with the
substring fallback `kw in subj` (the out-of-scope keyword loop). -/
def searchFall (pat subj : List Char) : Bool :=
  match reSearchStr pat subj with
  | some b => b
  | Option.none => containsSub subj pat

/-- `re.search(kw, subj)` under `try/except re.error: pass` (the
PDF/HTML/Both keyword loops), and also the plain `re.search` of the
path-pattern loops, whose fixed patterns all compile. -/
def searchNoF (pat subj : List Char) : Bool :=
  (reSearchStr pat subj).getD false

/-- `DocTypeClassifier.classify_url`: ordered rule evaluation exactly
as in the source — out-of-scope path substrings, then out-of-scope
keywords, then the `.pdf` extension, then PDF keywords and paths, then
HTML keywords and paths, then Both keywords and paths, else
Unclassified.  (There is no blocked-domain rule and no override rule in
the source.)  The path is `urlparse(url).path` — with the `;params`
tail split off (`parsePath`).  The source's `urlparse` call here is
*unwrapped*, so on a URL that trips CPython's netloc validation the
source raises where this total model still classifies; the claims
about `classify_url` therefore carry a `parseSafe` hypothesis, on
which the source provably returns and agrees with this model. -/
def classify_url (v : PyVal) : String × String × String :=
  match v with
  | .str url =>
    let url_lower : List Char := lowerL url.data
    let path_lower : List Char :=
      lowerL (parsePath (urlsplitCore url.data).1 (urlsplitCore url.data).2.2.1)
    match OOS_PATH_PATTERNS.find? (fun pat => containsSub path_lower pat.data) with
    | some pat => ("Out of Scope", "high", pat)
    | Option.none =>
    match OOS_KEYWORDS.find? (fun kw => searchFall kw.data url_lower) with
    | some kw => ("Out of Scope", "high", kw)
    | Option.none =>
    if endsWithL path_lower ".pdf".data then ("PDF", "high", ".pdf extension")
    else
    match PDF_ONLY_KEYWORDS.find? (fun kw => searchNoF kw.data url_lower) with
    | some kw => ("PDF", "medium", kw)
    | Option.none =>
    match PDF_PATH_PATTERNS.find? (fun pat => searchNoF pat.data path_lower) with
    | some pat => ("PDF", "medium", pat)
    | Option.none =>
    match HTML_ONLY_KEYWORDS.find? (fun kw => searchNoF kw.data url_lower) with
    | some kw => ("HTML", "medium", kw)
    | Option.none =>
    match HTML_PATH_PATTERNS.find? (fun pat => searchNoF pat.data path_lower) with
    | some pat => ("HTML", "medium", pat)
    | Option.none =>
    match BOTH_KEYWORDS.find? (fun kw => searchNoF kw.data url_lower) with
    | some kw => ("Both", "medium", kw)
    | Option.none =>
    match BOTH_PATH_PATTERNS.find? (fun pat => searchNoF pat.data path_lower) with
    | some pat => ("Both", "medium", pat)
    | Option.none => ("Unclassified", "low", "")
  | _ => ("Unclassified", "low", "")

/-- `DocTypeClassifier.is_in_scope`. -/
def is_in_scope (v : PyVal) (check_mode : String) : Bool :=
  let c := (classify_url v).1
  if c = "Out of Scope" then false
  else if check_mode = "Both" then true
  else if check_mode = "PDF" then c = "PDF" || c = "Both" || c = "Unclassified"
  else if check_mode = "HTML" then c = "HTML" || c = "Both" || c = "Unclassified"
  else true

/-! ## Embedding of `URLExtractor` -/

/-- The character class `[^\s\'"<>\}\)]` of the URL-extraction regex. -/
def urlBodyC (c : Char) : Bool :=
  !(isSpaceC c || c = '\'' || c = '"' || c = '<' || c = '>' ||
    c = '\x7d' || c = ')')

theorem startsWithL_len (l p : List Char) (h : startsWithL l p = true) :
    p.length ≤ l.length := by
  induction p generalizing l with
  | nil => simp
  | cons c cs ih =>
    cases l with
    | nil => simp [startsWithL] at h
    | cons d ds =>
      simp only [startsWithL, Bool.and_eq_true] at h
      have := ih ds h.2
      simp only [List.length_cons]
      omega

theorem dropWhile_lt_of_takeWhile_ne (p : Char → Bool) (m : List Char)
    (h : m.takeWhile p ≠ []) : (m.dropWhile p).length < m.length := by
  cases m with
  | nil => simp at h
  | cons c cs =>
    by_cases hc : p c
    · have := dropWhile_length_le p cs
      simp [List.dropWhile, hc]
      omega
    · simp [List.takeWhile, hc] at h

/-- Fuelled helper of `scanUrls`. -/
def scanUrlsF : Nat → List Char → List (List Char)
  | 0, _ => []
  | fuel + 1, l =>
    match l with
    | [] => []
    | c :: cs =>
      if startsWithL (c :: cs) "https://".data ∧
          (List.drop 8 (c :: cs)).takeWhile urlBodyC ≠ [] then
        ("https://".data ++ (List.drop 8 (c :: cs)).takeWhile urlBodyC) ::
          scanUrlsF fuel ((List.drop 8 (c :: cs)).dropWhile urlBodyC)
      else if startsWithL (c :: cs) "http://".data ∧
          (List.drop 7 (c :: cs)).takeWhile urlBodyC ≠ [] then
        ("http://".data ++ (List.drop 7 (c :: cs)).takeWhile urlBodyC) ::
          scanUrlsF fuel ((List.drop 7 (c :: cs)).dropWhile urlBodyC)
      else
        scanUrlsF fuel cs

/-- `re.findall(r'(https?://[^\s\'"<>\}\)]+)', l)`: scan left to
right; at each position try `https://` then `http://`, then take the
longest non-empty run of allowed characters; on success continue after
the match, otherwise advance one character (each step strictly shrinks
the input, so `length + 1` fuel is exact). -/
def scanUrls (l : List Char) : List (List Char) := scanUrlsF (l.length + 1) l

/-- `URLExtractor.extract_all_http_urls`. -/
def extract_all_http_urls (raw : PyVal) : List String :=
  match raw with
  | .str s =>
    (scanUrls s.data).filterMap (fun m =>
      let cleaned := rstripL ['\x7d'] (rstripL [',', ';', '|'] m)
      if cleaned ≠ [] ∧ cleaned.length > 10 then some ⟨cleaned⟩ else Option.none)
  | _ => []

/-- `URLExtractor.get_all_plain_http_urls` (`list(set(_))` is modelled
by a deduplication; only membership in the result matters below). -/
def get_all_plain_http_urls (urls : List PyVal) : List String :=
  dedupL (urls.flatMap extract_all_http_urls)

/-- `URLExtractor.extract_regex_patterns`: keep the stripped entries
starting (case-insensitively) with `ev:`, `cp:`, `df:` or `if:`. -/
def extract_regex_patterns (urls : List PyVal) : List String :=
  urls.filterMap (fun u =>
    match u with
    | .str s =>
      let stripped := trimL s.data
      if (startsWithL (lowerL stripped) "ev:".data ||
          startsWithL (lowerL stripped) "cp:".data ||
          startsWithL (lowerL stripped) "df:".data ||
          startsWithL (lowerL stripped) "if:".data) then
        some ⟨stripped⟩
      else Option.none
    | _ => Option.none)

/-! ## Embedding of `DomainUtil` -/

/-- `DomainUtil.get_domain_root`: scheme + host only, `None` when the
parse fails or scheme/netloc is missing. -/
def get_domain_root (url : String) : Option String :=
  match urlsplitChecked (trimL url.data) with
  | Option.none => Option.none
  | some (s, n, _, _, _) =>
    if s = [] ∨ n = [] then Option.none
    else some ⟨urlunsplitM s n [] [] []⟩

/-- `DomainUtil.get_normalized_domain`:
`urlparse(url.strip()).netloc.lower().replace('www.', '')` — note that
this removes every occurrence of `"www."`, not only a leading one. -/
def get_normalized_domain (url : String) : Option String :=
  match urlsplitChecked (trimL url.data) with
  | Option.none => Option.none
  | some (_, n, _, _, _) => some ⟨replaceAll "www.".data [] (lowerL n)⟩

/-- Association-list lookup used for Python `dict`s (insertion order
preserved, first binding wins). -/
def lookupA (m : List (String × String)) (k : String) : Option String :=
  match m with
  | [] => Option.none
  | (k', v) :: t => if k' = k then some v else lookupA t k

/-- The accumulation loop of `DomainUtil.extract_unique_domain_roots`:
for each URL keep the first root per normalized domain, skipping
blocked domains (and falsy roots/domains). -/
def buildRoots : List String → List (String × String) → List (String × String)
  | [], m => m
  | u :: t, m =>
    let u' : String := ⟨trimL u.data⟩
    if ¬ startsWithL u'.data "http".data then buildRoots t m
    else
      match get_domain_root u', get_normalized_domain u' with
      | some root, some norm =>
        if root ≠ "" ∧ norm ≠ "" ∧ lookupA m norm = Option.none then
          if ¬ is_blocked_domain (some norm) then
            buildRoots t (m ++ [(norm, root)])
          else buildRoots t m
        else buildRoots t m
      | _, _ => buildRoots t m

/-- `DomainUtil.extract_unique_domain_roots`. -/
def extract_unique_domain_roots (urls : List PyVal) : List (String × String) :=
  buildRoots (get_all_plain_http_urls urls) []

/-! ## Embedding of `ConcurrentDomainCrawler` -/

/-- Crawl configuration (`max_depth`, `max_pages`, `max_workers`;
timeout and delay have no observable effect in the sequential model). -/
structure CrawlCfg where
  max_depth : Nat
  max_pages : Nat
  max_workers : Nat
  deriving DecidableEq, Repr

/-- The tracking query parameters dropped by `_normalize_url`. -/
def trackParams : List String :=
  ["utm_source", "utm_medium", "utm_campaign", "utm_term", "utm_content",
   "fbclid", "gclid"]

/-- `ConcurrentDomainCrawler._normalize_url`: drop the fragment,
canonicalize the path's trailing slashes (empty/all-slash path becomes
`/`), drop tracking query parameters; on a parse error return the URL
unchanged (the `except` branch). -/
def normalize_url (url : String) : String :=
  match urlsplitChecked url.data with
  | Option.none => url
  | some (s, n, p, q, _) =>
    let p' := if rstripL ['/'] p = [] then ['/'] else rstripL ['/'] p
    let q' :=
      if q ≠ [] then
        joinAmp ((splitAmp q).filter
          (fun prm => ¬ trackParams.contains ⟨lowerL (beforeChar '=' prm)⟩))
      else q
    ⟨urlunsplitM s n p' q' []⟩

/-- `ConcurrentDomainCrawler._is_valid_url` (the enclosing `try/except`
returns `False` on a parse error).  The excluded-extension check reads
the path with the `;params` text still attached (an abstraction: the
source reads `urlparse().path`); the claims below conclude `false` for
this function at inputs rejected by the earlier scheme/netloc/domain
checks, which the path never reaches. -/
def is_valid_url (url : String) (allowed : List String) : Bool :=
  match urlsplitChecked url.data with
  | Option.none => false
  | some (s, n, p, _, _) =>
    if ¬ (s = "http".data ∨ s = "https".data) then false
    else if n = [] then false
    else
      let domain : String := ⟨replaceAll "www.".data [] (lowerL n)⟩
      if ¬ allowed.contains domain then false
      else if is_blocked_domain (some domain) then false
      else
        let path_lower := lowerL p
        if EXCLUDED_EXTENSIONS.any (fun e => endsWithL path_lower e.data) then
          false
        else
          let url_lower := lowerL url.data
          if EXCLUDED_PATH_PATTERNS.any
              (fun pat => searchNoF pat.data url_lower) then false
          else true

/-- A discovered-URL record (`all_discovered` dictionary value). -/
structure CrawlRec where
  seed : String
  depth : Nat
  domain : String
  deriving DecidableEq, Repr

/-- `_crawl_batch` (sequentialized): process `(url, depth)` pairs in
order against the shared `visited` set and page counter; a page over
budget ends the batch early (after marking the page visited), exactly
as the early `return new_urls` does. -/
def crawl_batch (cfg : CrawlCfg) (fetch : String → List String)
    (allowed : List String) :
    List (String × Nat) → List String → Nat →
    List String × Nat × List (String × Nat)
  | [], visited, pages => (visited, pages, [])
  | (url, depth) :: rest, visited, pages =>
    if depth > cfg.max_depth then crawl_batch cfg fetch allowed rest visited pages
    else if visited.contains url then
      crawl_batch cfg fetch allowed rest visited pages
    else
      let visited' := visited ++ [url]
      let pages' := pages + 1
      if pages' > cfg.max_pages then (visited', pages', [])
      else
        let discovered := (fetch url).filterMap (fun link =>
          let norm := normalize_url link
          if is_valid_url norm allowed ∧ ¬ visited'.contains norm then
            some (norm, depth + 1)
          else Option.none)
        let (v'', p'', more) := crawl_batch cfg fetch allowed rest visited' pages'
        (v'', p'', discovered ++ more)

/-- Fuelled helper of `chunkList`. -/
def chunkListF (n : Nat) : Nat → List (String × Nat) → List (List (String × Nat))
  | 0, _ => []
  | fuel + 1, l =>
    if l = [] ∨ n = 0 then [] else l.take n :: chunkListF n fuel (l.drop n)

/-- Split a list into chunks of `n` (the batch partitioning
`current_level[i:i+batch_size]`). -/
def chunkList (n : Nat) (l : List (String × Nat)) : List (List (String × Nat)) :=
  chunkListF n (l.length + 1) l

/-- Run the batches of one depth level in submission order, threading
the shared `visited`/`pages` state (the sequential interleaving of the
thread pool). -/
def runBatches (cfg : CrawlCfg) (fetch : String → List String)
    (allowed : List String) :
    List (List (String × Nat)) → List String → Nat →
    List String × Nat × List (String × Nat)
  | [], visited, pages => (visited, pages, [])
  | b :: bs, visited, pages =>
    let (v', p', new₁) := crawl_batch cfg fetch allowed b visited pages
    let (v'', p'', new₂) := runBatches cfg fetch allowed bs v' p'
    (v'', p'', new₁ ++ new₂)

/-- Insert the new URLs of one level into `all_discovered` (first
discovery wins) and build the next level, as in the `as_completed`
result loop. -/
def integrate (roots : List (String × String)) (defaultSeed : String) :
    List (String × Nat) → List (String × CrawlRec) → List (String × Nat) →
    List (String × CrawlRec) × List (String × Nat)
  | [], disc, next => (disc, next)
  | (u, d) :: t, disc, next =>
    if (disc.lookup u).isSome then integrate roots defaultSeed t disc next
    else
      let domain : String :=
        ⟨replaceAll "www.".data [] (lowerL (urlsplitCore u.data).2.1)⟩
      let root := (lookupA roots domain).getD defaultSeed
      integrate roots defaultSeed t
        (disc ++ [(u, ⟨root, d, domain⟩)]) (next ++ [(u, d)])

/-- The depth-level loop of `crawl` (`for depth_level in
range(max_depth + 1)` with the two `break` conditions). -/
def crawlLevels (cfg : CrawlCfg) (fetch : String → List String)
    (allowed : List String) (roots : List (String × String))
    (defaultSeed : String) :
    Nat → List (String × Nat) → List String → Nat →
    List (String × CrawlRec) → List (String × CrawlRec)
  | 0, _, _, _, disc => disc
  | fuel + 1, level, visited, pages, disc =>
    if level = [] ∨ pages ≥ cfg.max_pages then disc
    else
      let batchSize := max 1 (level.length / cfg.max_workers)
      let batches := chunkList batchSize level
      let (v', p', news) := runBatches cfg fetch allowed batches visited pages
      let (disc', next) := integrate roots defaultSeed news disc []
      crawlLevels cfg fetch allowed roots defaultSeed fuel next v' p' disc'

/-- The seed loop of `crawl`: normalize every root, record it at depth
0 (dictionary assignment overwrites) and put it on the first level. -/
def seedLoop (roots : List (String × String)) :
    List (String × String) → List (String × CrawlRec) → List (String × Nat) →
    List (String × CrawlRec) × List (String × Nat)
  | [], disc, level => (disc, level)
  | (dm, root) :: t, disc, level =>
    let normalized := normalize_url root
    let disc' :=
      if (disc.lookup normalized).isSome then
        disc.map (fun kv =>
          if kv.1 = normalized then (kv.1, CrawlRec.mk root 0 dm) else kv)
      else disc ++ [(normalized, CrawlRec.mk root 0 dm)]
    seedLoop roots t disc' (level ++ [(normalized, 0)])

/-- `ConcurrentDomainCrawler.crawl` (sequentialized; `fetch` stands for
`_fetch_links`, whose network responses are an environment parameter).
Returns `all_discovered` as an insertion-ordered association list. -/
def crawl (cfg : CrawlCfg) (fetch : String → List String)
    (roots : List (String × String)) : List (String × CrawlRec) :=
  if roots = [] then []
  else
    let allowed := roots.map (·.1)
    let defaultSeed := (roots.headD ("", "")).2
    let (disc, level) := seedLoop roots roots [] []
    crawlLevels cfg fetch allowed roots defaultSeed
      (cfg.max_depth + 1) level [] 0 disc

/-! ## Embedding of `URLMatcher` -/

/-- `URLMatcher.normalize_for_comparison`:
`url.strip().rstrip('/').lower().replace('://www.', '://')`. -/
def normalize_for_comparison (url : String) : String :=
  if url = "" then ""
  else ⟨replaceAll "://www.".data "://".data
          (lowerL (rstripL ['/'] (trimL url.data)))⟩

/-- The directive-tag prefix `^(ev|cp|df|if):` (case-insensitive,
anchored): the rest of the string on success. -/
def dirTag (l : List Char) : Option (List Char) :=
  if startsWithL (lowerL l) "ev:".data || startsWithL (lowerL l) "cp:".data ||
     startsWithL (lowerL l) "df:".data || startsWithL (lowerL l) "if:".data then
    some (l.drop 3)
  else Option.none

/-- The `(.*?)\)?\s*$` tail search of the directive regex: try group
lengths `k` in ascending order (the lazy `.*?`), preferring to consume
a closing `)` (greedy `\)?`); `.` cannot cross a newline. -/
def dirKLoop (s1 : List Char) : Nat → Nat → Option (List Char)
  | _, 0 => Option.none
  | k, fuel + 1 =>
    if k > s1.length then Option.none
    else
      let mid := s1.take k
      if mid.contains '\n' then Option.none
      else
        let rest2 := s1.drop k
        if startsWithL rest2 [')'] ∧ (rest2.drop 1).all isSpaceC then some mid
        else if rest2.all isSpaceC then some mid
        else dirKLoop s1 (k + 1) fuel

/-- Group 2 of `re.match(r'^(ev|cp|df|if):\s*\(?(.*?)\)?\s*$', _)` on
the text after the tag: the greedy `\s*` takes the maximal whitespace
run (reducing it can never turn failure into success, because `.`
cannot match the newline that caused the failure), then `\(?` prefers
to consume an opening parenthesis, backtracking to not consuming it. -/
def dirG2 (rest : List Char) : Option (List Char) :=
  let s0 := rest.dropWhile isSpaceC
  if startsWithL s0 ['('] then
    match dirKLoop (s0.drop 1) 0 (s0.length + 2) with
    | some mid => some mid
    | Option.none => dirKLoop s0 0 (s0.length + 2)
  else dirKLoop s0 0 (s0.length + 2)

/-- The two-stage directive parse of `is_url_covered`: the full
`^tag:\s*\(?(.*?)\)?\s*$` match, falling back to `^tag:(.*)` (whose
group stops at a newline). -/
def dirParse (pat : String) : Option (List Char) :=
  match dirTag pat.data with
  | Option.none => Option.none
  | some rest => some ((dirG2 rest).getD (rest.takeWhile (· ≠ '\n')))

/-- `regex_part[1:-1]` when the part is parenthesis-wrapped. -/
def stripParens (p : List Char) : List Char :=
  if startsWithL p ['('] ∧ endsWithL p [')'] then (p.drop 1).dropLast else p

/-- One directive of the regex loop of `is_url_covered`: `some reason`
when it marks the URL covered; `none` both when it does not match and
when an `re.error` aborts the directive (`except: continue`).  Note
that the parenthesis-stripped form is searched against the path only,
and that an `re.error` raised by the stripped form skips the full-URL
search of the intact form. -/
def dirCovered (disc : String) (path : List Char) (pat : String) :
    Option String :=
  match dirParse pat with
  | Option.none => Option.none
  | some g2 =>
    let P := trimL g2
    if P = [] then Option.none
    else
      let I := stripParens P
      match reSearchStr P path with
      | Option.none => Option.none
      | some true => some ("Regex: " ++ ⟨pat.data.take 60⟩)
      | some false =>
        if I ≠ P then
          match reSearchStr I path with
          | Option.none => Option.none
          | some true => some ("Regex: " ++ ⟨pat.data.take 60⟩)
          | some false =>
            match reSearchStr P disc.data with
            | some true => some ("Regex: " ++ ⟨pat.data.take 60⟩)
            | _ => Option.none
        else
          match reSearchStr P disc.data with
          | some true => some ("Regex: " ++ ⟨pat.data.take 60⟩)
          | _ => Option.none

/-- The regex-directive loop of `is_url_covered`. -/
def dirLoop (disc : String) (path : List Char) : List String → Bool × String
  | [] => (false, "")
  | pat :: t =>
    match dirCovered disc path pat with
    | some reason => (true, reason)
    | Option.none => dirLoop disc path t

/-- The host-and-path loop of `is_url_covered` (both paths are
`urlparse().path`, so with `;params` split off). -/
def pathLoop (discDomain : String) (discPath : List Char) :
    List String → Option String
  | [] => Option.none
  | r :: t =>
    let pr := urlsplitCore r.data
    let rd : String := ⟨replaceAll "www.".data [] (lowerL pr.2.1)⟩
    let rp := rstripL ['/'] (parsePath pr.1 pr.2.2.1)
    if rd = discDomain ∧ rp ≠ [] ∧ rstripL ['/'] discPath = rp then
      some ("Path match: " ++ ⟨rp⟩)
    else pathLoop discDomain discPath t

/-- `URLMatcher.is_url_covered`: exact normalized match, then
same-host path match, then the regex directives, else not covered.
The exact-match stage uses no parsing; after it the source parses the
discovered URL and every reference with *unwrapped* `urlparse` (so on
parse-unsafe input the source raises where this model continues — the
claims about the later stages carry `parseSafe` hypotheses), and all
path matching is on `urlparse().path`, with `;params` split off
(`parsePath`). -/
def is_url_covered (disc : String) (refs pats : List String) : Bool × String :=
  let nd := normalize_for_comparison disc
  if refs.any (fun r => normalize_for_comparison r = nd) then
    (true, "Exact match")
  else
    let pd := urlsplitCore disc.data
    let discDomain : String := ⟨replaceAll "www.".data [] (lowerL pd.2.1)⟩
    let discPath := parsePath pd.1 pd.2.2.1
    match pathLoop discDomain discPath refs with
    | some reason => (true, reason)
    | Option.none => dirLoop disc discPath pats

/-! ## Claim theorems -/

/-- C9: for every input value that is not a string (`None`, a number, a
list, ...), `classify_url` returns exactly
`("Unclassified", "low", "")` without raising: the classifier is total
over arbitrary inputs at its public interface. -/
theorem c9_nonstring_unclassified (v : PyVal) (h : v.isStr = false) :
    classify_url v = ("Unclassified", "low", "") := by
  cases v with
  | str s => simp [PyVal.isStr] at h
  | none => rfl
  | int n => rfl
  | list l => rfl

/-- C9 witness: the theorem applied at the concrete input `None`. -/
theorem c9_witness :
    PyVal.none.isStr = false ∧
    classify_url PyVal.none = ("Unclassified", "low", "") :=
  ⟨rfl, c9_nonstring_unclassified PyVal.none rfl⟩

theorem lookupA_append_none (m : List (String × String)) (k key : String)
    (v : String) (hm : lookupA m key = Option.none) (hk : k ≠ key) :
    lookupA (m ++ [(k, v)]) key = Option.none := by
  induction m with
  | nil => simp [lookupA, hk]
  | cons kv t ih =>
    obtain ⟨k1, v1⟩ := kv
    simp only [List.cons_append, lookupA] at hm ⊢
    by_cases h : k1 = key
    · rw [if_pos h] at hm
      exact absurd hm (by simp)
    · rw [if_neg h] at hm ⊢
      exact ih hm

theorem buildRoots_skips (l : List String) (m : List (String × String))
    (key : String) (hkey : is_blocked_domain (some key) = true)
    (hm : lookupA m key = Option.none) :
    lookupA (buildRoots l m) key = Option.none := by
  induction l generalizing m with
  | nil => simpa [buildRoots] using hm
  | cons u t ih =>
    simp only [buildRoots]
    split
    · exact ih m hm
    · split
      · split
        · split
          · rename_i root norm hcond hnb
            apply ih
            apply lookupA_append_none _ _ _ _ hm
            intro he
            rw [he] at hnb
            simp [hkey] at hnb
          · exact ih m hm
        · exact ih m hm
      · exact ih m hm

/-- C10: `is_blocked_domain` returns `True` for the empty string and
for `None`; consequently a URL whose host is empty or cannot be parsed
never becomes a crawl seed (no `""` key in the resolver's domain map)
and never passes crawl link validation. -/
theorem c10_empty_host_blocked :
    is_blocked_domain (some "") = true ∧
    is_blocked_domain Option.none = true ∧
    (∀ urls : List PyVal,
      lookupA (extract_unique_domain_roots urls) "" = Option.none) ∧
    (∀ (u : String) (allowed : List String),
      urlsplitChecked u.data = Option.none → is_valid_url u allowed = false) ∧
    (∀ (u : String) (allowed : List String) (s p q f : List Char),
      urlsplitChecked u.data = some (s, [], p, q, f) →
      is_valid_url u allowed = false) := by
  refine ⟨rfl, rfl, ?_, ?_, ?_⟩
  · intro urls
    exact buildRoots_skips (get_all_plain_http_urls urls) [] "" rfl rfl
  · intro u allowed h
    simp [is_valid_url, h]
  · intro u allowed s p q f h
    simp only [is_valid_url, h]
    split
    · rfl
    · rfl

/-- C10 witness: the blocked-domain facts and both "never admitted"
conjuncts applied at concrete inputs (an unparsable IPv6-bracket URL
and a URL with an empty host). -/
theorem c10_witness :
    lookupA (extract_unique_domain_roots [PyVal.str "https://acme.com/x"]) ""
      = Option.none ∧
    is_valid_url "http://[::1" ["a.com"] = false ∧
    is_valid_url "http:x" ["a.com"] = false :=
  ⟨c10_empty_host_blocked.2.2.1 [PyVal.str "https://acme.com/x"],
   c10_empty_host_blocked.2.2.2.1 "http://[::1" ["a.com"] (by decide),
   c10_empty_host_blocked.2.2.2.2 "http:x" ["a.com"]
     "http".data "x".data [] [] (by decide)⟩

/-- C2 counterexample: a reference entry on the permanently blocked
host `s3.amazonaws.com` passes straight into the extractor's plain-URL
set — the extractor performs no blocked-domain filtering. -/
theorem c2_counterexample :
    get_all_plain_http_urls [PyVal.str "https://s3.amazonaws.com/ab"] =
      ["https://s3.amazonaws.com/ab"] ∧
    is_blocked_domain (get_normalized_domain "https://s3.amazonaws.com/ab") =
      true := by
  constructor
  · decide
  · decide

theorem buildRoots_no_blocked (l : List String) (m : List (String × String))
    (key : String) (hkey : is_blocked_domain (some key) = true)
    (hm : lookupA m key = Option.none) :
    lookupA (buildRoots l m) key = Option.none :=
  buildRoots_skips l m key hkey hm

theorem is_valid_url_blocked (u : String) (allowed : List String)
    (s n p q f : List Char)
    (hp : urlsplitChecked u.data = some (s, n, p, q, f))
    (hb : is_blocked_domain (some ⟨replaceAll "www.".data [] (lowerL n)⟩)
            = true) :
    is_valid_url u allowed = false := by
  simp only [is_valid_url, hp]
  split
  · rfl
  · split
    · rfl
    · split
      · rfl
      · simp [hb]

/-- C2 amended: the plain-URL extraction does not exclude blocked
domains (see the counterexample); the blocked-domain policy is instead
enforced at domain resolution (a blocked domain never gets a seed in
`extract_unique_domain_roots`) and at crawl link validation
(`_is_valid_url` rejects every URL whose normalized host is blocked).
-/
theorem c2_amended :
    (∀ (urls : List PyVal) (d : String), is_blocked_domain (some d) = true →
      lookupA (extract_unique_domain_roots urls) d = Option.none) ∧
    (∀ (u : String) (allowed : List String) (s n p q f : List Char),
      urlsplitChecked u.data = some (s, n, p, q, f) →
      is_blocked_domain (some ⟨replaceAll "www.".data [] (lowerL n)⟩) = true →
      is_valid_url u allowed = false) := by
  constructor
  · intro urls d hd
    exact buildRoots_no_blocked (get_all_plain_http_urls urls) [] d hd rfl
  · intro u allowed s n p q f hp hb
    exact is_valid_url_blocked u allowed s n p q f hp hb

/-- C2 amended witness: the resolver refuses a seed for
`s3.amazonaws.com` and the validator rejects a link on it, at concrete
inputs. -/
theorem c2_amended_witness :
    lookupA (extract_unique_domain_roots [PyVal.str "https://s3.amazonaws.com/ab"])
      "s3.amazonaws.com" = Option.none ∧
    is_valid_url "https://s3.amazonaws.com/x" ["s3.amazonaws.com"] = false :=
  ⟨c2_amended.1 [PyVal.str "https://s3.amazonaws.com/ab"] "s3.amazonaws.com"
     (by decide),
   c2_amended.2 "https://s3.amazonaws.com/x" ["s3.amazonaws.com"]
     "https".data "s3.amazonaws.com".data "/x".data [] []
     (by decide) (by decide)⟩

/-- C3 counterexample: `classify_url` has no blocked-domain rule — the
URL `http://s3.amazonaws.com/a.pdf` sits on a permanently blocked
domain yet is classified `PDF/high` by the `.pdf`-extension rule, not
`Out of Scope/high`. -/
theorem c3_counterexample :
    is_blocked_domain (get_normalized_domain "http://s3.amazonaws.com/a.pdf")
      = true ∧
    classify_url (.str "http://s3.amazonaws.com/a.pdf") =
      ("PDF", "high", ".pdf extension") := by
  constructor
  · decide
  · decide

/-- C3 amended: `classify_url` applies the ordinary ordered rules to
blocked-domain URLs like any others; for every parse-safe URL (no
bracket, ASCII — so the source's unwrapped `urlparse` returns),
whenever the out-of-scope step finds nothing and the parsed path
(`urlparse().path`, `;params` split off) ends in `.pdf`, the result is
`PDF/high` — even on a permanently blocked domain. -/
theorem c3_amended (url : String)
    (hsafe : parseSafe url.data = true)
    (hb : is_blocked_domain (get_normalized_domain url) = true)
    (h1 : OOS_PATH_PATTERNS.find?
        (fun pat => containsSub
          (lowerL (parsePath (urlsplitCore url.data).1
            (urlsplitCore url.data).2.2.1)) pat.data)
      = Option.none)
    (h2 : OOS_KEYWORDS.find? (fun kw => searchFall kw.data (lowerL url.data))
      = Option.none)
    (h3 : endsWithL (lowerL (parsePath (urlsplitCore url.data).1
        (urlsplitCore url.data).2.2.1)) ".pdf".data = true) :
    classify_url (.str url) = ("PDF", "high", ".pdf extension") := by
  simp only [classify_url, h1, h2, h3, if_true]

/-- C3 amended witness: the theorem applied at
`http://s3.amazonaws.com/a.pdf`. -/
theorem c3_amended_witness :
    classify_url (.str "http://s3.amazonaws.com/a.pdf") =
      ("PDF", "high", ".pdf extension") :=
  c3_amended "http://s3.amazonaws.com/a.pdf" (by decide) (by decide) (by decide)
    (by decide) (by decide)

/-- Spec-side comparison definition for C8, following the spec's words:
"normalizedDomain = lowercased host with leading `www.` stripped" —
only a leading occurrence is removed. -/
def stripLeadingWwwSpec (l : List Char) : List Char :=
  if startsWithL l "www.".data then l.drop 4 else l

/-- C8 counterexample: for host `media.www.example.com` the code
removes the inner `"www."` as well (`str.replace` removes every
occurrence), so the computed domain differs from the spec's
leading-only strip, which would leave the host unchanged. -/
theorem c8_counterexample :
    get_normalized_domain "https://media.www.example.com/x" =
      some "media.example.com" ∧
    stripLeadingWwwSpec (lowerL "media.www.example.com".data) =
      "media.www.example.com".data ∧
    "media.example.com" ≠ "media.www.example.com" := by
  refine ⟨by decide, by decide, by decide⟩

theorem startsWithL_decomp (l p : List Char) (h : startsWithL l p = true) :
    l = p ++ l.drop p.length := by
  induction p generalizing l with
  | nil => simp
  | cons c cs ih =>
    cases l with
    | nil => simp [startsWithL] at h
    | cons d ds =>
      simp only [startsWithL, Bool.and_eq_true, decide_eq_true_eq] at h
      obtain ⟨rfl, h2⟩ := h
      simpa using ih ds h2

theorem replaceAllGo_skip (pat rep : List Char) (xs rest : List Char) :
    replaceAllGo pat rep xs.length (xs ++ rest) =
      replaceAllGo pat rep 0 rest := by
  induction xs with
  | nil => rfl
  | cons c cs ih => simpa [replaceAllGo] using ih

theorem replaceAllGo_id (pat rep l : List Char)
    (h : containsSub l pat = false) : replaceAllGo pat rep 0 l = l := by
  induction l with
  | nil => rfl
  | cons c cs ih =>
    rw [containsSub] at h
    by_cases hs : startsWithL (c :: cs) pat = true
    · rw [if_pos hs] at h
      exact absurd h (by simp)
    · rw [if_neg hs] at h
      simp only [replaceAllGo]
      rw [if_neg (fun hc => hs hc.2)]
      rw [ih h]

theorem startsWithL_append_self (p rest : List Char) :
    startsWithL (p ++ rest) p = true := by
  induction p with
  | nil => simp [startsWithL]
  | cons c cs ih => simp [startsWithL, ih]

theorem replaceAllGo_head (pat rep rest : List Char) (hne : pat ≠ []) :
    replaceAllGo pat rep 0 (pat ++ rest) =
      rep ++ replaceAllGo pat rep 0 rest := by
  cases pat with
  | nil => exact absurd rfl hne
  | cons c cs =>
    show replaceAllGo (c :: cs) rep 0 (c :: (cs ++ rest)) = _
    rw [replaceAllGo, if_pos ⟨hne, startsWithL_append_self (c :: cs) rest⟩]
    congr 1
    have hl : (c :: cs).length - 1 = cs.length := by simp
    rw [hl, replaceAllGo_skip]

/-- C8 amended: the code removes every occurrence of `"www."` from the
lowercased host, not only a leading one; for every parse-safe URL (no
bracket, ASCII — so the source's wrapped `urlparse` cannot fall into
its `except None` branch for a reason outside `urlsplitChecked`'s
model), whenever the host (after lowercasing and stripping one leading
`"www."`) contains no further `"www."`, the computed domain coincides
with the spec's leading-only strip.  (The counterexample shows the
unrestricted claim fails on hosts with an inner `"www."`.) -/
theorem c8_amended (u : String) (s n p q f : List Char)
    (hsafe : parseSafe u.data = true)
    (hp : urlsplitChecked (trimL u.data) = some (s, n, p, q, f))
    (hw : containsSub (stripLeadingWwwSpec (lowerL n)) "www.".data = false) :
    get_normalized_domain u = some ⟨stripLeadingWwwSpec (lowerL n)⟩ := by
  simp only [get_normalized_domain, hp]
  refine congrArg some (congrArg String.mk ?_)
  by_cases hsw : startsWithL (lowerL n) "www.".data = true
  · have hdec := startsWithL_decomp (lowerL n) "www.".data hsw
    simp only [stripLeadingWwwSpec, hsw, if_pos] at hw ⊢
    have h4 : ("www.".data).length = 4 := by decide
    rw [← h4] at hw ⊢
    rw [replaceAll]
    conv_lhs => rw [hdec]
    rw [replaceAllGo_head _ _ _ (by decide)]
    rw [replaceAllGo_id _ _ _ hw]
    rfl
  · simp only [stripLeadingWwwSpec, hsw] at hw ⊢
    rw [if_neg (by simp [hsw])]
    exact replaceAllGo_id _ _ _ hw

/-- C8 amended witness: the theorem applied at
`https://www.acme.com/x` (host with only a leading `www.`). -/
theorem c8_amended_witness :
    get_normalized_domain "https://www.acme.com/x" =
      some ⟨stripLeadingWwwSpec (lowerL "www.acme.com".data)⟩ :=
  c8_amended "https://www.acme.com/x" "https".data "www.acme.com".data
    "/x".data [] [] (by decide) (by decide) (by decide)

/-- Concrete fetch environment for the C4 counterexample: the seed page
links to one in-domain page. -/
def c4fetch : String → List String :=
  fun u => if u = "http://a.com/" then ["http://a.com/x"] else []

/-- C4 counterexample: with `max_depth = 0` the crawl of `a.com` still
returns a record of depth `1` (`http://a.com/x`, discovered from the
seed but never visited): the returned dictionary is not bounded by
`max_depth`. -/
theorem c4_counterexample :
    crawl ⟨0, 1000, 50⟩ c4fetch [("a.com", "http://a.com")] =
      [("http://a.com/", ⟨"http://a.com", 0, "a.com"⟩),
       ("http://a.com/x", ⟨"http://a.com", 1, "a.com"⟩)] ∧
    (1 : Nat) > (CrawlCfg.mk 0 1000 50).max_depth := by
  constructor
  · decide
  · decide

theorem crawl_batch_depth (cfg : CrawlCfg) (fetch : String → List String)
    (allowed : List String) (batch : List (String × Nat)) (v : List String)
    (pgs : Nat) :
    ∀ x ∈ (crawl_batch cfg fetch allowed batch v pgs).2.2,
      x.2 ≤ cfg.max_depth + 1 := by
  induction batch generalizing v pgs with
  | nil =>
    intro x hx
    simp [crawl_batch] at hx
  | cons ud rest ih =>
    obtain ⟨url, depth⟩ := ud
    intro x hx
    rw [crawl_batch] at hx
    split at hx
    · exact ih _ _ x hx
    · split at hx
      · exact ih _ _ x hx
      · dsimp only [] at hx
        split at hx
        · simp at hx
        · rename_i hdepth hvis
          rcases hcb : crawl_batch cfg fetch allowed rest (v ++ [url]) (pgs + 1)
            with ⟨v2, p2, more⟩
          rw [hcb] at hx
          simp only [List.mem_append, List.mem_filterMap] at hx
          rcases hx with ⟨link, _, hlk⟩ | hx
          · split at hlk
            · cases hlk
              simp only []
              omega
            · cases hlk
          · have hih := ih (v ++ [url]) (pgs + 1) x
            rw [hcb] at hih
            exact hih hx

theorem runBatches_depth (cfg : CrawlCfg) (fetch : String → List String)
    (allowed : List String) (bs : List (List (String × Nat)))
    (v : List String) (pgs : Nat) :
    ∀ x ∈ (runBatches cfg fetch allowed bs v pgs).2.2,
      x.2 ≤ cfg.max_depth + 1 := by
  induction bs generalizing v pgs with
  | nil =>
    intro x hx
    simp [runBatches] at hx
  | cons b bs ih =>
    intro x hx
    rw [runBatches] at hx
    rcases hcb : crawl_batch cfg fetch allowed b v pgs with ⟨v1, p1, new₁⟩
    rw [hcb] at hx
    dsimp only [] at hx
    rcases hrb : runBatches cfg fetch allowed bs v1 p1 with ⟨v2, p2, new₂⟩
    rw [hrb] at hx
    simp only [List.mem_append] at hx
    rcases hx with hx | hx
    · have := crawl_batch_depth cfg fetch allowed b v pgs x
      rw [hcb] at this
      exact this hx
    · have := ih v1 p1 x
      rw [hrb] at this
      exact this hx

theorem integrate_depth (roots : List (String × String)) (dflt : String)
    (news : List (String × Nat)) (disc : List (String × CrawlRec))
    (next : List (String × Nat)) (B : Nat)
    (hnews : ∀ x ∈ news, x.2 ≤ B)
    (hdisc : ∀ x ∈ disc, x.2.depth ≤ B) :
    ∀ x ∈ (integrate roots dflt news disc next).1, x.2.depth ≤ B := by
  induction news generalizing disc next with
  | nil =>
    intro x hx
    simpa [integrate] using hdisc x hx
  | cons ud t ih =>
    obtain ⟨u, d⟩ := ud
    intro x hx
    rw [integrate] at hx
    split at hx
    · exact ih disc next (fun y hy => hnews y (List.mem_cons_of_mem _ hy))
        hdisc x hx
    · refine ih _ _ (fun y hy => hnews y (List.mem_cons_of_mem _ hy))
        ?_ x hx
      intro y hy
      rcases List.mem_append.mp hy with hy | hy
      · exact hdisc y hy
      · simp only [List.mem_singleton] at hy
        subst hy
        exact hnews (u, d) (List.mem_cons_self _ _)

theorem crawlLevels_depth (cfg : CrawlCfg) (fetch : String → List String)
    (allowed : List String) (roots : List (String × String)) (dflt : String)
    (fuel : Nat) (level : List (String × Nat)) (v : List String) (pgs : Nat)
    (disc : List (String × CrawlRec))
    (hdisc : ∀ x ∈ disc, x.2.depth ≤ cfg.max_depth + 1) :
    ∀ x ∈ crawlLevels cfg fetch allowed roots dflt fuel level v pgs disc,
      x.2.depth ≤ cfg.max_depth + 1 := by
  induction fuel generalizing level v pgs disc with
  | zero =>
    intro x hx
    simpa [crawlLevels] using hdisc x hx
  | succ f ih =>
    intro x hx
    rw [crawlLevels] at hx
    split at hx
    · exact hdisc x hx
    · dsimp only [] at hx
      rcases hrb : runBatches cfg fetch allowed
          (chunkList (max 1 (level.length / cfg.max_workers)) level) v pgs
        with ⟨v1, p1, news⟩
      rw [hrb] at hx
      rcases hint : integrate roots dflt news disc [] with ⟨disc1, next1⟩
      rw [hint] at hx
      refine ih next1 v1 p1 disc1 ?_ x hx
      intro y hy
      have := integrate_depth roots dflt news disc [] (cfg.max_depth + 1)
        ?_ hdisc y
      · rw [hint] at this
        exact this hy
      · intro z hz
        have := runBatches_depth cfg fetch allowed
          (chunkList (max 1 (level.length / cfg.max_workers)) level) v pgs z
        rw [hrb] at this
        exact this hz

theorem seedLoop_depth (roots rts : List (String × String))
    (disc : List (String × CrawlRec)) (level : List (String × Nat)) (B : Nat)
    (hdisc : ∀ x ∈ disc, x.2.depth ≤ B) :
    ∀ x ∈ (seedLoop roots rts disc level).1, x.2.depth ≤ B := by
  induction rts generalizing disc level with
  | nil =>
    intro x hx
    simpa [seedLoop] using hdisc x hx
  | cons dr t ih =>
    obtain ⟨dm, root⟩ := dr
    intro x hx
    rw [seedLoop] at hx
    refine ih _ _ ?_ x hx
    split
    · intro y hy
      simp only [List.mem_map] at hy
      obtain ⟨z, hz, hzy⟩ := hy
      by_cases hzn : z.1 = normalize_url root
      · rw [if_pos hzn] at hzy
        subst hzy
        simp
      · rw [if_neg hzn] at hzy
        subst hzy
        exact hdisc z hz
    · intro y hy
      rcases List.mem_append.mp hy with hy | hy
      · exact hdisc y hy
      · simp only [List.mem_singleton] at hy
        subst hy
        simp

/-- C4 amended: every record in the dictionary returned by `crawl` has
depth at most `max_depth + 1`: the frontier discovered while visiting
the last permitted level (depth `max_depth`) is recorded at depth
`max_depth + 1` even though it is never visited, and nothing deeper is
ever inserted.  (The counterexample shows the spec's bound `max_depth`
itself fails.) -/
theorem c4_amended (cfg : CrawlCfg) (fetch : String → List String)
    (roots : List (String × String)) (u : String) (rec : CrawlRec)
    (h : (u, rec) ∈ crawl cfg fetch roots) :
    rec.depth ≤ cfg.max_depth + 1 := by
  rw [crawl] at h
  split at h
  · simp at h
  · dsimp only [] at h
    rcases hsl : seedLoop roots roots [] [] with ⟨disc0, level0⟩
    rw [hsl] at h
    have hd0 : ∀ x ∈ disc0, x.2.depth ≤ cfg.max_depth + 1 := by
      intro x hx
      have := seedLoop_depth roots roots [] [] (cfg.max_depth + 1)
        (by intro y hy; simp at hy) x
      rw [hsl] at this
      exact this hx
    exact crawlLevels_depth cfg fetch (List.map (·.1) roots) roots
      (roots.headD ("", "")).2 (cfg.max_depth + 1) level0 [] 0 disc0 hd0
      (u, rec) h

/-- C4 amended witness: the theorem applied at the concrete crawl of
the counterexample (the depth-1 record obeys the `max_depth + 1`
bound). -/
theorem c4_amended_witness :
    ((1 : Nat)) ≤ (CrawlCfg.mk 0 1000 50).max_depth + 1 :=
  c4_amended ⟨0, 1000, 50⟩ c4fetch [("a.com", "http://a.com")]
    "http://a.com/x" ⟨"http://a.com", 1, "a.com"⟩ (by decide)

/-- C6 counterexample: the directive `ev:((a)|(b))` carries the
parenthesis-wrapped pattern `((a)|(b))`, which matches the full URL
`https://a.com/xyz` both intact and with the outer parentheses
stripped (only the path, `/xyz`, matches neither) — yet
`is_url_covered` reports the URL as not covered: the inner
parenthesis-stripping produces the invalid pattern `a)|(b`, whose
`re.error` on the path search aborts the directive before the full-URL
search runs. -/
theorem c6_counterexample :
    reSearchStr "((a)|(b))".data "https://a.com/xyz".data = some true ∧
    reSearchStr "(a)|(b)".data "https://a.com/xyz".data = some true ∧
    reSearchStr "(a)|(b)".data
      (parsePath (urlsplitCore "https://a.com/xyz".data).1
        (urlsplitCore "https://a.com/xyz".data).2.2.1) = some false ∧
    reSearchStr "a)|(b".data "/xyz".data = Option.none ∧
    is_url_covered "https://a.com/xyz" [] ["ev:((a)|(b))"] = (false, "") := by
  refine ⟨by decide, by decide, by decide, by decide, by decide⟩

theorem dirLoop_covered (disc : String) (path : List Char)
    (pats : List String) (pat : String) (r : String)
    (hmem : pat ∈ pats) (hc : dirCovered disc path pat = some r) :
    (dirLoop disc path pats).1 = true := by
  induction pats with
  | nil => simp at hmem
  | cons p t ih =>
    rw [dirLoop]
    rcases List.mem_cons.mp hmem with hmem | hmem
    · subst hmem
      rw [hc]
    · cases hcp : dirCovered disc path p with
      | some r2 => rfl
      | none => exact ih hmem

/-- C6 amended: for a regex-coverage directive `tag:pattern`, the code
tries (in order) the parsed pattern against the path, the
parenthesis-stripped form against the path, and the parsed pattern
against the full URL — a match of any tried form marks the URL
covered, provided every form tried before the matching one compiles.
The path searched is `urlparse(discovered_url).path` (`;params` split
off); the stripped form is never tested against the full URL, and an
`re.error` from the stripped form aborts the directive's remaining
checks (see the counterexample).  The `parseSafe` hypotheses confine
the claim to inputs where the source's unwrapped `urlparse` of the
discovered URL and of each reference returns, so the regex stage is
reached. -/
theorem c6_amended (disc : String) (refs pats : List String) (pat : String)
    (g2 : List Char)
    (hsafe : parseSafe disc.data = true)
    (hsrefs : ∀ r ∈ refs, parseSafe r.data = true)
    (hmem : pat ∈ pats)
    (hg2 : dirParse pat = some g2)
    (hne : trimL g2 ≠ [])
    (hmatch :
      reSearchStr (trimL g2) (parsePath (urlsplitCore disc.data).1 (urlsplitCore disc.data).2.2.1) = some true ∨
      ((reSearchStr (trimL g2) (parsePath (urlsplitCore disc.data).1 (urlsplitCore disc.data).2.2.1)).isSome ∧
        stripParens (trimL g2) ≠ trimL g2 ∧
        reSearchStr (stripParens (trimL g2)) (parsePath (urlsplitCore disc.data).1 (urlsplitCore disc.data).2.2.1) =
          some true) ∨
      (reSearchStr (trimL g2) disc.data = some true ∧
        (stripParens (trimL g2) = trimL g2 ∨
         (reSearchStr (stripParens (trimL g2)) (parsePath (urlsplitCore disc.data).1 (urlsplitCore disc.data).2.2.1)).isSome))) :
    (is_url_covered disc refs pats).1 = true := by
  have hcov : ∃ r, dirCovered disc (parsePath (urlsplitCore disc.data).1 (urlsplitCore disc.data).2.2.1) pat
      = some r := by
    rw [dirCovered, hg2]
    dsimp only []
    rw [if_neg (by simpa using hne)]
    rcases hmatch with h1 | ⟨hs, hne2, h2⟩ | ⟨h3, hI⟩
    · rw [h1]
      exact ⟨_, rfl⟩
    · cases hps : reSearchStr (trimL g2) (parsePath (urlsplitCore disc.data).1 (urlsplitCore disc.data).2.2.1) with
      | none => rw [hps] at hs; simp at hs
      | some b =>
        cases b with
        | true => exact ⟨_, rfl⟩
        | false =>
          rw [if_pos hne2, h2]
          exact ⟨_, rfl⟩
    · have hsome : (reSearchStr (trimL g2) (parsePath (urlsplitCore disc.data).1 (urlsplitCore disc.data).2.2.1)).isSome := by
        rw [reSearchStr] at h3 ⊢
        cases hpr : parseRegex (trimL g2) with
        | none => rw [hpr] at h3; simp at h3
        | some r => simp
      cases hps : reSearchStr (trimL g2) (parsePath (urlsplitCore disc.data).1 (urlsplitCore disc.data).2.2.1) with
      | none => rw [hps] at hsome; simp at hsome
      | some b =>
        cases b with
        | true => exact ⟨_, rfl⟩
        | false =>
          by_cases hieq : stripParens (trimL g2) = trimL g2
          · rw [if_neg (by simp [hieq]), h3]
            exact ⟨_, rfl⟩
          · rw [if_pos hieq]
            rcases hI with hI | hI
            · exact absurd hI hieq
            · cases hpsI : reSearchStr (stripParens (trimL g2))
                  (parsePath (urlsplitCore disc.data).1 (urlsplitCore disc.data).2.2.1) with
              | none => rw [hpsI] at hI; simp at hI
              | some bI =>
                cases bI with
                | true => exact ⟨_, rfl⟩
                | false =>
                  rw [h3]
                  exact ⟨_, rfl⟩
  obtain ⟨r, hr⟩ := hcov
  rw [is_url_covered]
  dsimp only []
  split
  · rfl
  · cases hpl : pathLoop ⟨replaceAll "www.".data [] (lowerL (urlsplitCore disc.data).2.1)⟩
        (parsePath (urlsplitCore disc.data).1 (urlsplitCore disc.data).2.2.1) refs with
    | some reason => rfl
    | none => exact dirLoop_covered disc _ pats pat r hmem hr

/-- C6 amended witness: the theorem applied at the directive
`ev:(news)` and the URL `https://news.x.com/a`, covered through the
full-URL search of the parsed pattern. -/
theorem c6_amended_witness :
    (is_url_covered "https://news.x.com/a" [] ["ev:(news)"]).1 = true :=
  c6_amended "https://news.x.com/a" [] ["ev:(news)"] "ev:(news)" "news".data
    (by decide) (fun r hr => absurd hr (List.not_mem_nil r))
    (by decide) (by decide) (by decide)
    (Or.inr (Or.inr ⟨by decide, Or.inl (by decide)⟩))

/-- C1 counterexample: the URL
`https://example.com/privacy notice investor relations` contains both
the phrase `privacy notice` and the override term
`investor relations`, yet `classify_url` returns the Out of Scope
label — there is no override pattern set in the code. -/
theorem c1_counterexample :
    containsSub (lowerL "https://example.com/privacy notice investor relations".data)
      "privacy notice".data = true ∧
    containsSub (lowerL "https://example.com/privacy notice investor relations".data)
      "investor relations".data = true ∧
    classify_url (.str "https://example.com/privacy notice investor relations")
      = ("Out of Scope", "high", "/privacy") := by
  refine ⟨by decide, by decide, by decide⟩

/-- The compiled form of `_flex('privacy notice')`,
`privacy[\s\-_]?notice`, as a regex AST. -/
def pnRE : RE :=
  .seq (.lit 'p') (.seq (.lit 'r') (.seq (.lit 'i') (.seq (.lit 'v')
    (.seq (.lit 'a') (.seq (.lit 'c') (.seq (.lit 'y')
      (.seq (.alt (.cls false [CAtom.spc, CAtom.ch '-', CAtom.ch '_']) .emp)
        (.seq (.lit 'n') (.seq (.lit 'o') (.seq (.lit 't')
          (.seq (.lit 'i') (.seq (.lit 'c') (.seq (.lit 'e') .emp)))))))))))))

theorem mtch_pn (p : Option Char) (post : List Char) :
    mtch pnRE p ("privacy notice".data ++ post) = [(some 'e', post)] := by
  show mtch pnRE p
      ('p' :: 'r' :: 'i' :: 'v' :: 'a' :: 'c' :: 'y' :: ' ' :: 'n' :: 'o' ::
        't' :: 'i' :: 'c' :: 'e' :: post) = [(some 'e', post)]
  simp [pnRE, mtch, clsMatch, catomMatch, isSpaceC]

theorem searchA_pn (pre : List Char) (p : Option Char) (post : List Char) :
    searchA pnRE p (pre ++ ("privacy notice".data ++ post)) = true := by
  induction pre generalizing p with
  | nil =>
    show searchA pnRE p
        ('p' :: ('r' :: 'i' :: 'v' :: 'a' :: 'c' :: 'y' :: ' ' :: 'n' :: 'o' ::
          't' :: 'i' :: 'c' :: 'e' :: post)) = true
    rw [searchA]
    have h := mtch_pn p post
    show (!(mtch pnRE p
        ('p' :: 'r' :: 'i' :: 'v' :: 'a' :: 'c' :: 'y' :: ' ' :: 'n' :: 'o' ::
          't' :: 'i' :: 'c' :: 'e' :: post)).isEmpty ||
      searchA pnRE (some 'p')
        ('r' :: 'i' :: 'v' :: 'a' :: 'c' :: 'y' :: ' ' :: 'n' :: 'o' ::
          't' :: 'i' :: 'c' :: 'e' :: post)) = true
    rw [show ('p' :: 'r' :: 'i' :: 'v' :: 'a' :: 'c' :: 'y' :: ' ' :: 'n' ::
        'o' :: 't' :: 'i' :: 'c' :: 'e' :: post)
        = "privacy notice".data ++ post from rfl, h]
    rfl
  | cons c cs ih =>
    show searchA pnRE p (c :: (cs ++ ("privacy notice".data ++ post))) = true
    rw [searchA]
    rw [ih (some c)]
    simp

theorem reSearch_pn (pre post : List Char) :
    reSearch pnRE (pre ++ ("privacy notice".data ++ post)) = true :=
  searchA_pn pre Option.none post

/-- C1 amended: every parse-safe URL (no bracket, ASCII — so the
source's unwrapped `urlparse` inside `classify_url` returns) containing
the phrase `privacy notice` together with `investor relations` is
classified `Out of Scope/high` — the opposite of the claim: no
in-scope override set exists in `classify_url`, and the out-of-scope
keyword `privacy notice` (or an earlier out-of-scope pattern) always
fires. -/
theorem c1_amended (a b c : String)
    (hsa : parseSafe a.data = true) (hsb : parseSafe b.data = true)
    (hsc : parseSafe c.data = true) :
    (classify_url (.str (a ++ "privacy notice" ++ b ++ "investor relations" ++ c))).1
      = "Out of Scope" ∧
    (classify_url (.str (a ++ "privacy notice" ++ b ++ "investor relations" ++ c))).2.1
      = "high" := by
  cases hfind : OOS_PATH_PATTERNS.find?
      (fun pat => containsSub
        (lowerL (parsePath
          (urlsplitCore
            (a ++ "privacy notice" ++ b ++ "investor relations" ++ c).data).1
          (urlsplitCore
            (a ++ "privacy notice" ++ b ++ "investor relations" ++ c).data).2.2.1))
        pat.data) with
  | some pat =>
    have hres : classify_url
        (.str (a ++ "privacy notice" ++ b ++ "investor relations" ++ c))
        = ("Out of Scope", "high", pat) := by
      simp only [classify_url]
      rw [hfind]
    rw [hres]
    exact ⟨rfl, rfl⟩
  | none =>
    have hurl : (a ++ "privacy notice" ++ b ++ "investor relations" ++ c).data
        = a.data ++ ("privacy notice".data ++ (b.data ++
            ("investor relations".data ++ c.data))) := by
      simp [String.data_append, List.append_assoc]
    have hkw : (OOS_KEYWORDS.find? (fun kw => searchFall kw.data
        (lowerL (a ++ "privacy notice" ++ b ++ "investor relations" ++ c).data))).isSome := by
      rw [List.find?_isSome]
      refine ⟨flexStr "privacy notice", by decide, ?_⟩
      rw [show flexStr "privacy notice" = "privacy[\\s\\-_]?notice" from by decide]
      rw [searchFall, reSearchStr]
      rw [show parseRegex "privacy[\\s\\-_]?notice".data = some pnRE from by decide]
      simp only [Option.map_some]
      rw [hurl]
      simp only [lowerL, List.map_append]
      rw [show List.map lowerC "privacy notice".data = "privacy notice".data
        from by decide]
      exact reSearch_pn (List.map lowerC a.data) _
    obtain ⟨kw, hkw2⟩ := Option.isSome_iff_exists.mp hkw
    have hres : classify_url
        (.str (a ++ "privacy notice" ++ b ++ "investor relations" ++ c))
        = ("Out of Scope", "high", kw) := by
      simp only [classify_url]
      rw [hfind, hkw2]
    rw [hres]
    exact ⟨rfl, rfl⟩

/-- C1 amended witness: the theorem applied at the spec-style URL
`https://example.com/privacy notice investor relations`. -/
theorem c1_witness :
    (classify_url (.str ("https://example.com/" ++ "privacy notice" ++ " " ++
      "investor relations" ++ ""))).1 = "Out of Scope" ∧
    (classify_url (.str ("https://example.com/" ++ "privacy notice" ++ " " ++
      "investor relations" ++ ""))).2.1 = "high" :=
  c1_amended "https://example.com/" " " "" (by decide) (by decide) (by decide)

/-! ## C5: case/slash/www-insensitivity of the exact-match rule -/

theorem char_toNat_inj {a b : Char} (h : a.toNat = b.toNat) : a = b := by
  apply Char.ext
  exact UInt32.toNat.inj h

theorem toNat_ofNat_valid (n : Nat) (h : n < 55296) : (Char.ofNat n).toNat = n := by
  rw [Char.ofNat, dif_pos (Or.inl h)]
  rfl

theorem upper_toNat {c : Char} (h : 'A' ≤ c ∧ c ≤ 'Z') :
    65 ≤ c.toNat ∧ c.toNat ≤ 90 := by
  obtain ⟨h1, h2⟩ := h
  simp only [Char.le_def, UInt32.le_def, BitVec.le_def, Char.toNat,
    UInt32.toNat] at h1 h2 ⊢
  exact ⟨h1, h2⟩

theorem lowerC_toNat_upper {c : Char} (h : 'A' ≤ c ∧ c ≤ 'Z') :
    (lowerC c).toNat = c.toNat + 32 := by
  have hb := upper_toNat h
  rw [lowerC, if_pos h]
  exact toNat_ofNat_valid _ (by omega)

/-- Lowercasing cannot produce or consume a character outside both
alphabet ranges: for such `d`, `lowerC c = d ↔ c = d`. -/
theorem lowerC_eq_iff {d : Char}
    (hd : d.toNat < 65 ∨ (90 < d.toNat ∧ d.toNat < 97) ∨ 122 < d.toNat)
    (c : Char) : lowerC c = d ↔ c = d := by
  by_cases h : 'A' ≤ c ∧ c ≤ 'Z'
  · have h32 := lowerC_toNat_upper h
    have hb := upper_toNat h
    constructor
    · intro he
      rw [he] at h32
      omega
    · intro he
      subst he
      omega
  · rw [lowerC, if_neg h]

theorem isSpaceC_lowerC (c : Char) : isSpaceC (lowerC c) = isSpaceC c := by
  unfold isSpaceC
  rw [decide_eq_decide.mpr (lowerC_eq_iff (by decide) c),
      decide_eq_decide.mpr (lowerC_eq_iff (by decide) c),
      decide_eq_decide.mpr (lowerC_eq_iff (by decide) c),
      decide_eq_decide.mpr (lowerC_eq_iff (by decide) c),
      decide_eq_decide.mpr (lowerC_eq_iff (by decide) c),
      decide_eq_decide.mpr (lowerC_eq_iff (by decide) c)]

theorem slashMem_lowerC (c : Char) :
    decide (lowerC c ∈ ['/']) = decide (c ∈ ['/']) := by
  apply decide_eq_decide.mpr
  simp only [List.mem_singleton]
  exact lowerC_eq_iff (by decide) c

theorem dropWhile_map (f : Char → Char) (p : Char → Bool)
    (hp : ∀ c, p (f c) = p c) (l : List Char) :
    (l.map f).dropWhile p = (l.dropWhile p).map f := by
  induction l with
  | nil => simp
  | cons c cs ih =>
    by_cases h : p c
    · simp [List.dropWhile, h, hp, ih]
    · simp [List.dropWhile, h, hp]

theorem ltrim_lower (l : List Char) : ltrimL (lowerL l) = lowerL (ltrimL l) := by
  unfold ltrimL lowerL
  exact dropWhile_map lowerC isSpaceC isSpaceC_lowerC l

theorem trim_lower (l : List Char) : trimL (lowerL l) = lowerL (trimL l) := by
  unfold trimL
  rw [ltrim_lower]
  unfold lowerL
  rw [← List.map_reverse, dropWhile_map lowerC isSpaceC isSpaceC_lowerC,
    List.map_reverse]

theorem rstripSlash_lower (l : List Char) :
    rstripL ['/'] (lowerL l) = lowerL (rstripL ['/'] l) := by
  unfold rstripL lowerL
  rw [← List.map_reverse,
    dropWhile_map lowerC (· ∈ ['/']) (fun c => slashMem_lowerC c),
    List.map_reverse]

theorem dropWhile_append_stop (p : Char → Bool) (xs ys : List Char) (y : Char)
    (hy : p y = false) :
    (xs ++ y :: ys).dropWhile p = xs.dropWhile p ++ y :: ys := by
  induction xs with
  | nil => simp [List.dropWhile, hy]
  | cons c cs ih =>
    by_cases h : p c
    · simpa [List.dropWhile, h] using ih
    · simp [List.dropWhile, h]

theorem dropWhile_append_of_ne (p : Char → Bool) (xs ys : List Char)
    (h : xs.dropWhile p ≠ []) :
    (xs ++ ys).dropWhile p = xs.dropWhile p ++ ys := by
  induction xs with
  | nil => simp at h
  | cons c cs ih =>
    by_cases hc : p c
    · rw [List.dropWhile_cons_of_pos hc] at h
      simpa [List.dropWhile, hc] using ih h
    · simp [List.dropWhile, hc]

theorem rstrip_append_of_ne (cs : List Char) (xs ys : List Char)
    (h : rstripL cs ys ≠ []) :
    rstripL cs (xs ++ ys) = xs ++ rstripL cs ys := by
  unfold rstripL at h ⊢
  rw [List.reverse_append, dropWhile_append_of_ne _ _ _ (by
    intro hz
    exact h (by rw [hz]; rfl))]
  simp

theorem rstrip_append_member (cs : List Char) (xs : List Char) (c : Char)
    (hc : c ∈ cs) :
    rstripL cs (xs ++ [c]) = rstripL cs xs := by
  unfold rstripL
  rw [List.reverse_append]
  simp [List.dropWhile, hc]

theorem rtrim_noop (l : List Char)
    (h : isSpaceC (l.reverse.headD '/') = false) :
    (l.reverse.dropWhile isSpaceC).reverse = l := by
  cases hr : l.reverse with
  | nil =>
    have : l = [] := by simpa using congrArg List.reverse hr
    simp [this]
  | cons c rest =>
    rw [hr] at h
    simp only [List.headD_cons] at h
    rw [List.dropWhile_cons_of_neg (by simp [h])]
    rw [← hr, List.reverse_reverse]

theorem replaceAllGo_no_head (p0 : Char) (pt rep : List Char)
    (xs ys : List Char) (hx : ∀ c ∈ xs, c ≠ p0) :
    replaceAllGo (p0 :: pt) rep 0 (xs ++ ys) =
      xs ++ replaceAllGo (p0 :: pt) rep 0 ys := by
  induction xs with
  | nil => rfl
  | cons c cs ih =>
    have hne : c ≠ p0 := hx c (List.mem_cons_self _ _)
    rw [List.cons_append, replaceAllGo, if_neg]
    · rw [ih (fun d hd => hx d (List.mem_cons_of_mem _ hd))]
      rfl
    · intro hcond
      have := hcond.2
      simp only [startsWithL, Bool.and_eq_true, decide_eq_true_eq] at this
      exact hne this.1

theorem startsWithL_append_left (a b p : List Char)
    (h : startsWithL a p = true) : startsWithL (a ++ b) p = true := by
  induction p generalizing a with
  | nil => simp [startsWithL]
  | cons q ps ih =>
    cases a with
    | nil => simp [startsWithL] at h
    | cons x xs =>
      simp only [startsWithL, Bool.and_eq_true] at h
      simp only [List.cons_append, startsWithL, Bool.and_eq_true]
      exact ⟨h.1, ih xs h.2⟩

theorem rstrip_decomp (cs l : List Char) :
    ∃ rest, l = rstripL cs l ++ rest := by
  refine ⟨(l.reverse.takeWhile (· ∈ cs)).reverse, ?_⟩
  unfold rstripL
  rw [← List.reverse_append, List.takeWhile_append_dropWhile,
    List.reverse_reverse]

theorem startsWith_rstrip (cs l p : List Char)
    (h : startsWithL (rstripL cs l) p = true) : startsWithL l p = true := by
  obtain ⟨rest, hrest⟩ := rstrip_decomp cs l
  rw [hrest]
  exact startsWithL_append_left _ _ _ h

theorem collapse_sep (ys : List Char)
    (h : startsWithL ys ['w', 'w', 'w', '.'] = false) :
    replaceAllGo [':', '/', '/', 'w', 'w', 'w', '.'] [':', '/', '/'] 0
        (':' :: '/' :: '/' :: ys) =
      ':' :: '/' :: '/' ::
        replaceAllGo [':', '/', '/', 'w', 'w', 'w', '.'] [':', '/', '/'] 0 ys := by
  rw [replaceAllGo, if_neg (by simp [startsWithL, h])]
  rw [replaceAllGo, if_neg (by simp [startsWithL])]
  rw [replaceAllGo, if_neg (by simp [startsWithL])]

/-- The C5 witness family: a URL assembled from a scheme-like part
`s`, a host-plus-path part `t`, an optional inserted `www.` and an
optional single trailing slash. -/
def mkC5 (s t : String) (www slash : Bool) : String :=
  s ++ "://" ++ (if www then "www." else "") ++ t ++ (if slash then "/" else "")

theorem mkC5_data (s t : String) (www slash : Bool) :
    (mkC5 s t www slash).data =
      s.data ++ ':' :: '/' :: '/' ::
        ((if www then ['w', 'w', 'w', '.'] else []) ++
          (t.data ++ (if slash then ['/'] else []))) := by
  cases www <;> cases slash <;>
    simp [mkC5, String.data_append, List.append_assoc]

theorem c5_key (s t : String) (w x : Bool)
    (h3 : ':' ∉ s.data)
    (h4 : startsWithL (lowerL t.data) ['w', 'w', 'w', '.'] = false)
    (h5 : rstripL ['/'] t.data ≠ [])
    (h6 : isSpaceC (t.data.reverse.headD '/') = false) :
    replaceAllGo [':', '/', '/', 'w', 'w', 'w', '.'] [':', '/', '/'] 0
        (rstripL ['/'] (trimL (lowerL (mkC5 s t w x).data))) =
      ltrimL (lowerL s.data) ++ ':' :: '/' :: '/' ::
        replaceAllGo [':', '/', '/', 'w', 'w', 'w', '.'] [':', '/', '/'] 0
          (rstripL ['/'] (lowerL t.data)) := by
  have htne : t.data ≠ [] := by
    intro hz
    rw [hz] at h5
    exact h5 rfl
  -- the lowered URL in canonical shape
  have hlow : lowerL (mkC5 s t w x).data =
      lowerL s.data ++ ':' :: '/' :: '/' ::
        ((if w then ['w', 'w', 'w', '.'] else []) ++
          (lowerL t.data ++ (if x then ['/'] else []))) := by
    rw [mkC5_data]
    unfold lowerL
    cases w <;> cases x <;> simp [List.map_append, lowerC]
  rw [hlow]
  -- leading trim stops at the ':'
  have hltrim : ltrimL (lowerL s.data ++ ':' :: '/' :: '/' ::
      ((if w then ['w', 'w', 'w', '.'] else []) ++
        (lowerL t.data ++ (if x then ['/'] else [])))) =
      ltrimL (lowerL s.data) ++ ':' :: '/' :: '/' ::
        ((if w then ['w', 'w', 'w', '.'] else []) ++
          (lowerL t.data ++ (if x then ['/'] else []))) := by
    unfold ltrimL
    exact dropWhile_append_stop isSpaceC _ _ ':' (by decide)
  -- trailing trim is a no-op: the last character is a slash or the
  -- last character of `t`, neither of which is whitespace
  have hlast : ∀ (pre : List Char),
      isSpaceC ((pre ++ (lowerL t.data ++ (if x then ['/'] else []))).reverse.headD '/')
        = false := by
    intro pre
    cases x with
    | true =>
      rw [if_pos rfl]
      rw [show pre ++ (lowerL t.data ++ ['/']) =
        (pre ++ lowerL t.data) ++ ['/'] from by simp [List.append_assoc]]
      rw [List.reverse_append]
      simp only [List.reverse_cons, List.reverse_nil, List.nil_append,
        List.cons_append, List.headD_cons]
      decide
    | false =>
      rw [if_neg (show ¬(false = true) by simp), List.append_nil]
      cases hrev : t.data.reverse with
      | nil =>
        exact absurd (by simpa using congrArg List.reverse hrev) htne
      | cons c cs =>
        rw [List.reverse_append]
        unfold lowerL
        rw [← List.map_reverse, hrev]
        simp only [List.map_cons, List.cons_append, List.headD_cons]
        rw [hrev] at h6
        simp only [List.headD_cons] at h6
        rw [isSpaceC_lowerC]
        exact h6
  have htrim : trimL (lowerL s.data ++ ':' :: '/' :: '/' ::
      ((if w then ['w', 'w', 'w', '.'] else []) ++
        (lowerL t.data ++ (if x then ['/'] else [])))) =
      ltrimL (lowerL s.data) ++ ':' :: '/' :: '/' ::
        ((if w then ['w', 'w', 'w', '.'] else []) ++
          (lowerL t.data ++ (if x then ['/'] else []))) := by
    unfold trimL
    rw [hltrim]
    apply rtrim_noop
    rw [show ltrimL (lowerL s.data) ++ ':' :: '/' :: '/' ::
        ((if w then ['w', 'w', 'w', '.'] else []) ++
          (lowerL t.data ++ (if x then ['/'] else []))) =
      (ltrimL (lowerL s.data) ++ ':' :: '/' :: '/' ::
        (if w then ['w', 'w', 'w', '.'] else [])) ++
        (lowerL t.data ++ (if x then ['/'] else [])) from by
      simp [List.append_assoc]]
    exact hlast _
  rw [htrim]
  -- strip trailing slashes: the optional added slash disappears and
  -- stripping never crosses into the prefix
  have hts : rstripL ['/'] (lowerL t.data) ≠ [] := by
    rw [rstripSlash_lower]
    intro hz
    rw [lowerL, List.map_eq_nil_iff] at hz
    exact h5 hz
  have hrstrip : rstripL ['/'] (ltrimL (lowerL s.data) ++ ':' :: '/' :: '/' ::
      ((if w then ['w', 'w', 'w', '.'] else []) ++
        (lowerL t.data ++ (if x then ['/'] else [])))) =
      (ltrimL (lowerL s.data) ++ ':' :: '/' :: '/' ::
        (if w then ['w', 'w', 'w', '.'] else [])) ++ rstripL ['/'] (lowerL t.data) := by
    rw [show ltrimL (lowerL s.data) ++ ':' :: '/' :: '/' ::
        ((if w then ['w', 'w', 'w', '.'] else []) ++
          (lowerL t.data ++ (if x then ['/'] else []))) =
      (ltrimL (lowerL s.data) ++ ':' :: '/' :: '/' ::
        (if w then ['w', 'w', 'w', '.'] else [])) ++
        (lowerL t.data ++ (if x then ['/'] else [])) from by
      simp [List.append_assoc]]
    cases x with
    | true =>
      rw [if_pos rfl]
      rw [show (ltrimL (lowerL s.data) ++ ':' :: '/' :: '/' ::
          (if w then ['w', 'w', 'w', '.'] else [])) ++
          (lowerL t.data ++ ['/']) =
        ((ltrimL (lowerL s.data) ++ ':' :: '/' :: '/' ::
          (if w then ['w', 'w', 'w', '.'] else [])) ++ lowerL t.data) ++ ['/']
        from by simp [List.append_assoc]]
      rw [rstrip_append_member _ _ '/' (by decide)]
      rw [rstrip_append_of_ne _ _ _ hts]
    | false =>
      rw [if_neg (show ¬(false = true) by simp), List.append_nil]
      rw [rstrip_append_of_ne _ _ _ hts]
  rw [hrstrip]
  -- collapse `://www.` (or pass `://` through) uniformly
  have hnosep : ∀ c ∈ ltrimL (lowerL s.data), c ≠ ':' := by
    intro c hc
    have hsub : c ∈ lowerL s.data :=
      (List.dropWhile_sublist _).subset hc
    rw [lowerL, List.mem_map] at hsub
    obtain ⟨a, ha, hac⟩ := hsub
    intro hcc
    rw [hcc] at hac
    have : a = ':' := (lowerC_eq_iff (by decide) a).mp hac
    rw [this] at ha
    exact h3 ha
  cases w with
  | true =>
    rw [if_pos rfl]
    simp only [List.append_assoc, List.cons_append, List.nil_append]
    rw [replaceAllGo_no_head ':' _ _ _ _ hnosep]
    rw [show ':' :: '/' :: '/' :: 'w' :: 'w' :: 'w' :: '.' ::
          rstripL ['/'] (lowerL t.data) =
        [':', '/', '/', 'w', 'w', 'w', '.'] ++ rstripL ['/'] (lowerL t.data)
      from rfl]
    rw [replaceAllGo_head _ _ _ (by decide)]
    simp
  | false =>
    rw [if_neg (show ¬(false = true) by simp)]
    simp only [List.append_assoc, List.cons_append, List.nil_append]
    rw [replaceAllGo_no_head ':' _ _ _ _ hnosep]
    rw [collapse_sep _ (by
      cases hsw : startsWithL (rstripL ['/'] (lowerL t.data)) ['w', 'w', 'w', '.'] with
      | false => rfl
      | true => exact absurd (startsWith_rstrip _ _ _ hsw) (by simp [h4]))]

/-- C5: for every pair of URLs that differ only in letter case, one
optional trailing slash, and the optional presence of `www.` right
after `://` (built by `mkC5` over a shared scheme part `s` and body
`t`), `is_url_covered` reports covered via the first-priority exact
match whenever the reference variant is in the plain-URL set.  The
side conditions keep the differences meaningful: the scheme part has
no `:`, the body does not itself begin with `www.`, and the body has
real content before any trailing slashes or whitespace. -/
theorem c5_exact_match (s t cd cr : String) (wd wr sd sr : Bool)
    (refs pats : List String)
    (h1 : lowerL cd.data = lowerL (mkC5 s t wd sd).data)
    (h2 : lowerL cr.data = lowerL (mkC5 s t wr sr).data)
    (h3 : ':' ∉ s.data)
    (h4 : startsWithL (lowerL t.data) ['w', 'w', 'w', '.'] = false)
    (h5 : rstripL ['/'] t.data ≠ [])
    (h6 : isSpaceC (t.data.reverse.headD '/') = false)
    (hmem : cr ∈ refs) :
    is_url_covered cd refs pats = (true, "Exact match") := by
  have key : ∀ (u : String) (w x : Bool),
      lowerL u.data = lowerL (mkC5 s t w x).data →
      normalize_for_comparison u =
        ⟨ltrimL (lowerL s.data) ++ ':' :: '/' :: '/' ::
          replaceAllGo [':', '/', '/', 'w', 'w', 'w', '.'] [':', '/', '/'] 0
            (rstripL ['/'] (lowerL t.data))⟩ := by
    intro u w x hu
    have hne : u ≠ "" := by
      intro he
      subst he
      rw [show ("" : String).data = [] from rfl] at hu
      rw [mkC5_data] at hu
      simp [lowerL] at hu
    rw [normalize_for_comparison, if_neg hne]
    refine congrArg String.mk ?_
    rw [replaceAll]
    rw [show "://www.".data = [':', '/', '/', 'w', 'w', 'w', '.'] from rfl,
        show "://".data = [':', '/', '/'] from rfl]
    rw [← rstripSlash_lower, ← trim_lower, hu]
    exact c5_key s t w x h3 h4 h5 h6
  have e1 := key cd wd sd h1
  have e2 := key cr wr sr h2
  have hany : refs.any
      (fun r => normalize_for_comparison r = normalize_for_comparison cd)
      = true := by
    rw [List.any_eq_true]
    refine ⟨cr, hmem, ?_⟩
    simp [e1, e2]
  rw [is_url_covered]
  dsimp only []
  rw [if_pos hany]

/-- C5 witness: the spec's own example — discovered
`https://acme.com/news/item1` against reference
`https://ACME.com/news/item1/`. -/
theorem c5_witness :
    is_url_covered "https://acme.com/news/item1"
      ["https://ACME.com/news/item1/"] [] = (true, "Exact match") :=
  c5_exact_match "https" "acme.com/news/item1"
    "https://acme.com/news/item1" "https://ACME.com/news/item1/"
    false false false true ["https://ACME.com/news/item1/"] []
    (by decide) (by decide) (by decide) (by decide) (by decide) (by decide)
    (by decide)

/-! ## C7: idempotence of `_normalize_url` -/

/-- The path component after `_normalize_url`'s trailing-slash
canonicalization (`parsed.path.rstrip('/') or '/'`). -/
def pNorm (p : List Char) : List Char :=
  if rstripL ['/'] p = [] then ['/'] else rstripL ['/'] p

/-- The query component after `_normalize_url`'s tracking-parameter
filter. -/
def qNorm (q : List Char) : List Char :=
  if q ≠ [] then
    joinAmp ((splitAmp q).filter
      (fun prm => ¬ trackParams.contains ⟨lowerL (beforeChar '=' prm)⟩))
  else q

/-- Hypothesis domain of the corrected C7 claim: the parse of `u` does
not produce an empty netloc together with a canonicalized path starting
in `//` (where `urlunparse` would drop the `//` marker), and its path
carries no `;` (no `params` component, whose re-splitting interacts
with the slash stripping). -/
def normOk (u : String) : Bool :=
  match urlsplitChecked u.data with
  | Option.none => true
  | some (_, n, p, _, _) =>
    !(decide (n = []) && startsWithL (pNorm p) ['/', '/'] || decide (';' ∈ p))

theorem normalize_url_none (u : String)
    (h : urlsplitChecked u.data = Option.none) : normalize_url u = u := by
  rw [normalize_url, h]

theorem normalize_url_some (u : String) (s n p q f : List Char)
    (h : urlsplitChecked u.data = some (s, n, p, q, f)) :
    normalize_url u = ⟨urlunsplitM s n (pNorm p) (qNorm q) []⟩ := by
  rw [normalize_url, h]
  rfl

theorem mem_beforeChar {d c : Char} {l : List Char} (h : d ∈ beforeChar c l) :
    d ∈ l := by
  unfold beforeChar at h
  induction l with
  | nil => simpa using h
  | cons a t ih =>
    rw [List.takeWhile_cons] at h
    by_cases ha : a = c
    · simp [ha] at h
    · rw [if_pos (by simpa using ha)] at h
      rcases List.mem_cons.mp h with h1 | h1
      · exact h1 ▸ List.mem_cons_self a t
      · exact List.mem_cons_of_mem _ (ih h1)

theorem mem_afterChar {d c : Char} {l : List Char} (h : d ∈ afterChar c l) :
    d ∈ l := by
  unfold afterChar at h
  induction l with
  | nil => simpa using h
  | cons a t ih =>
    rw [List.dropWhile_cons] at h
    by_cases ha : a = c
    · rw [if_neg (by simpa using ha)] at h
      exact List.mem_cons_of_mem _ (by simpa using h)
    · rw [if_pos (by simpa using ha)] at h
      exact List.mem_cons_of_mem _ (ih h)

theorem self_not_mem_beforeChar (c : Char) (l : List Char) :
    c ∉ beforeChar c l := by
  intro h
  have := List.mem_takeWhile_imp h
  simp at this

theorem beforeChar_append {c : Char} (x y : List Char) (h : c ∉ x) :
    beforeChar c (x ++ y) = x ++ beforeChar c y := by
  induction x with
  | nil => rfl
  | cons a t ih =>
    have ha : a ≠ c := by rintro rfl; exact h (List.mem_cons_self _ _)
    rw [List.cons_append]
    show ((a :: (t ++ y)).takeWhile (· ≠ c)) = a :: t ++ beforeChar c y
    rw [List.takeWhile_cons_of_pos (by simpa using ha)]
    rw [show (t ++ y).takeWhile (· ≠ c) = t ++ beforeChar c y from
      ih (fun hm => h (List.mem_cons_of_mem _ hm))]
    rfl

theorem afterChar_append {c : Char} (x y : List Char) (h : c ∉ x) :
    afterChar c (x ++ y) = afterChar c y := by
  induction x with
  | nil => rfl
  | cons a t ih =>
    have ha : a ≠ c := by rintro rfl; exact h (List.mem_cons_self _ _)
    show (((a :: (t ++ y)).dropWhile (· ≠ c)).drop 1) = afterChar c y
    rw [List.dropWhile_cons_of_pos (by simpa using ha)]
    exact ih (fun hm => h (List.mem_cons_of_mem _ hm))

theorem beforeChar_eq_self {c : Char} {l : List Char} (h : c ∉ l) :
    beforeChar c l = l := by
  have := beforeChar_append l [] h
  simpa [beforeChar] using this

theorem afterChar_eq_nil {c : Char} {l : List Char} (h : c ∉ l) :
    afterChar c l = [] := by
  have := afterChar_append l [] h
  simpa [afterChar] using this

theorem beforeChar_append_cons {c : Char} (x y : List Char) (h : c ∉ x) :
    beforeChar c (x ++ c :: y) = x := by
  rw [beforeChar_append _ _ h]
  unfold beforeChar
  rw [List.takeWhile_cons_of_neg (by simp)]
  simp

theorem afterChar_append_cons {c : Char} (x y : List Char) (h : c ∉ x) :
    afterChar c (x ++ c :: y) = y := by
  rw [afterChar_append _ _ h]
  unfold afterChar
  rw [List.dropWhile_cons_of_neg (by simp)]
  rfl

theorem beforeChar_decomp {c : Char} {l : List Char} (h : c ∈ l) :
    l = beforeChar c l ++ c :: afterChar c l := by
  induction l with
  | nil => cases h
  | cons a t ih =>
    by_cases ha : a = c
    · subst ha
      unfold beforeChar afterChar
      rw [List.takeWhile_cons_of_neg (by simp), List.dropWhile_cons_of_neg (by simp)]
      simp
    · have hm : c ∈ t := by
        rcases List.mem_cons.mp h with h1 | h2
        · exact absurd h1.symm ha
        · exact h2
      unfold beforeChar afterChar
      rw [List.takeWhile_cons_of_pos (by simpa using ha),
        List.dropWhile_cons_of_pos (by simpa using ha)]
      rw [List.cons_append]
      exact congrArg (a :: ·) (ih hm)

theorem beforeChar_length_lt {c : Char} {l : List Char} (h : c ∈ l) :
    (beforeChar c l).length < l.length := by
  conv_rhs => rw [beforeChar_decomp h]
  rw [List.length_append, List.length_cons]
  omega

theorem takeWhile_append_all (p : Char → Bool) (xs ys : List Char)
    (h : ∀ c ∈ xs, p c = true) :
    (xs ++ ys).takeWhile p = xs ++ ys.takeWhile p := by
  induction xs with
  | nil => rfl
  | cons a t ih =>
    rw [List.cons_append, List.takeWhile_cons_of_pos (h a (List.mem_cons_self _ _)),
      ih (fun c hc => h c (List.mem_cons_of_mem _ hc)), List.cons_append]

theorem dropWhile_append_all (p : Char → Bool) (xs ys : List Char)
    (h : ∀ c ∈ xs, p c = true) :
    (xs ++ ys).dropWhile p = ys.dropWhile p := by
  induction xs with
  | nil => rfl
  | cons a t ih =>
    rw [List.cons_append, List.dropWhile_cons_of_pos (h a (List.mem_cons_self _ _)),
      ih (fun c hc => h c (List.mem_cons_of_mem _ hc))]

theorem dropWhile_head_not (p : Char → Bool) (l : List Char) (d : Char)
    (h : l.dropWhile p ≠ []) : p ((l.dropWhile p).headD d) = false := by
  induction l with
  | nil => simp at h
  | cons a t ih =>
    cases hpa : p a with
    | true => rw [List.dropWhile_cons_of_pos hpa] at h ⊢; exact ih h
    | false =>
      rw [List.dropWhile_cons_of_neg (by simp [hpa])]
      simpa using hpa

theorem headD_append_of_ne {x : List Char} (y : List Char) (d : Char)
    (h : x ≠ []) : (x ++ y).headD d = x.headD d := by
  cases x with
  | nil => exact absurd rfl h
  | cons a t => rfl

theorem urlPre_eq_self (l : List Char)
    (hclean : ∀ d ∈ l, ¬(d = '\t' ∨ d = '\x0d' ∨ d = '\n'))
    (hhead : 32 < (l.headD 'a').toNat) :
    urlPre l = l := by
  unfold urlPre
  have h1 : l.dropWhile (fun c => c.toNat ≤ 32) = l := by
    cases l with
    | nil => rfl
    | cons a t =>
      simp only [List.headD_cons] at hhead
      rw [List.dropWhile_cons_of_neg (by simp; omega)]
  rw [h1, List.filter_eq_self]
  intro a ha
  simpa using hclean a ha

theorem urlPre_clean {d : Char} {l : List Char} (h : d ∈ urlPre l) :
    ¬(d = '\t' ∨ d = '\x0d' ∨ d = '\n') := by
  unfold urlPre at h
  have := List.of_mem_filter h
  simpa using this

theorem urlPre_head (l : List Char) (h : urlPre l ≠ []) :
    32 < ((urlPre l).headD 'a').toNat := by
  unfold urlPre at h ⊢
  induction l with
  | nil => simp at h
  | cons a t ih =>
    by_cases ha : a.toNat ≤ 32
    · rw [List.dropWhile_cons_of_pos (by simpa using ha)] at h ⊢
      exact ih h
    · rw [List.dropWhile_cons_of_neg (by simpa using ha)] at h ⊢
      have hk : ¬(a = '\t' ∨ a = '\x0d' ∨ a = '\n') := by
        rintro (rfl | rfl | rfl) <;> exact ha (by decide)
      rw [List.filter_cons_of_pos (by simpa using hk)] at h ⊢
      simp only [List.headD_cons]
      omega

theorem charLe_of_toNat {a b : Char} (h : a.toNat ≤ b.toNat) : a ≤ b := by
  simp only [Char.le_def, UInt32.le_def, BitVec.le_def, Char.toNat, UInt32.toNat]
  exact h

theorem toNat_of_charLe {a b : Char} (h : a ≤ b) : a.toNat ≤ b.toNat := by
  simp only [Char.le_def, UInt32.le_def, BitVec.le_def, Char.toNat,
    UInt32.toNat] at h
  exact h

theorem lowerC_not_upper (c : Char) : ¬('A' ≤ lowerC c ∧ lowerC c ≤ 'Z') := by
  intro h
  by_cases hc : 'A' ≤ c ∧ c ≤ 'Z'
  · have h1 := lowerC_toNat_upper hc
    have h2 := upper_toNat h
    have h3 := upper_toNat hc
    omega
  · rw [lowerC, if_neg hc] at h
    exact hc h

theorem lowerC_lowerC (c : Char) : lowerC (lowerC c) = lowerC c := by
  conv_lhs => rw [lowerC]
  rw [if_neg (lowerC_not_upper c)]

theorem lowerL_lowerL (l : List Char) : lowerL (lowerL l) = lowerL l := by
  induction l with
  | nil => rfl
  | cons a t ih =>
    show lowerC (lowerC a) :: lowerL (lowerL t) = lowerC a :: lowerL t
    rw [lowerC_lowerC, ih]

theorem isAlphaC_lower_of_upper {c : Char} (h : 'A' ≤ c ∧ c ≤ 'Z') :
    isAlphaC (lowerC c) = true := by
  have h1 := lowerC_toNat_upper h
  have h2 := upper_toNat h
  unfold isAlphaC
  rw [Bool.or_eq_true, decide_eq_true_eq, decide_eq_true_eq]
  left
  constructor
  · apply charLe_of_toNat
    have : ('a').toNat = 97 := rfl
    omega
  · apply charLe_of_toNat
    have : ('z').toNat = 122 := rfl
    omega

theorem isAlphaC_lowerC_of {c : Char} (h : isAlphaC c = true) :
    isAlphaC (lowerC c) = true := by
  by_cases hu : 'A' ≤ c ∧ c ≤ 'Z'
  · exact isAlphaC_lower_of_upper hu
  · rw [lowerC, if_neg hu]
    exact h

theorem isSchemeC_lowerC_of {c : Char} (h : isSchemeC c = true) :
    isSchemeC (lowerC c) = true := by
  by_cases hu : 'A' ≤ c ∧ c ≤ 'Z'
  · have : isAlphaC (lowerC c) = true := isAlphaC_lower_of_upper hu
    unfold isSchemeC
    rw [this]
    rfl
  · rw [lowerC, if_neg hu]
    exact h

theorem mem_lowerL {d : Char} {l : List Char}
    (hd : d.toNat < 65 ∨ (90 < d.toNat ∧ d.toNat < 97) ∨ 122 < d.toNat) :
    d ∈ lowerL l ↔ d ∈ l := by
  unfold lowerL
  rw [List.mem_map]
  constructor
  · rintro ⟨c, hc, he⟩
    rw [lowerC_eq_iff hd c] at he
    exact he ▸ hc
  · intro h
    exact ⟨d, h, (lowerC_eq_iff hd d).mpr rfl⟩

theorem headD_lowerL (l : List Char) (d : Char) (h : l ≠ []) :
    (lowerL l).headD d = lowerC (l.headD d) := by
  cases l with
  | nil => exact absurd rfl h
  | cons a t => rfl

theorem all_lowerL {p : Char → Bool} {l : List Char}
    (hp : ∀ c, p c = true → p (lowerC c) = true) (h : l.all p = true) :
    (lowerL l).all p = true := by
  rw [List.all_eq_true] at h ⊢
  intro a ha
  rw [lowerL, List.mem_map] at ha
  obtain ⟨c, hc, rfl⟩ := ha
  exact hp c (h c hc)

theorem drop_len_append (s r : List Char) (c : Char) :
    (s ++ c :: r).drop (s.length + 1) = r := by
  induction s with
  | nil => rfl
  | cons a t ih => simpa using ih

theorem schemeSplit_valid (s r : List Char) (h1 : s ≠ [])
    (h2 : isAlphaC (s.headD ' ') = true) (h3 : s.all isSchemeC = true) :
    schemeSplit (s ++ ':' :: r) = (lowerL s, r) := by
  have hcol : ':' ∉ s := by
    intro hc
    have := List.all_eq_true.mp h3 ':' hc
    exact absurd this (by decide)
  unfold schemeSplit
  dsimp only []
  rw [beforeChar_append_cons s r hcol]
  rw [if_pos ⟨by rw [List.length_append, List.length_cons]; omega, h1, h2, h3⟩]
  rw [drop_len_append]

theorem schemeSplit_inval (l : List Char)
    (h : ':' ∉ l ∨ isAlphaC (l.headD ':') = false ∨
         ∃ d ∈ beforeChar ':' l, isSchemeC d = false) :
    schemeSplit l = ([], l) := by
  unfold schemeSplit
  dsimp only []
  rw [if_neg]
  intro hcond
  obtain ⟨hc1, hc2, hc3, hc4⟩ := hcond
  rcases h with h | h | ⟨d, hd, hbad⟩
  · rw [beforeChar_eq_self h] at hc1
    omega
  · cases l with
    | nil => exact hc2 rfl
    | cons a t =>
      by_cases ha : a = ':'
      · subst ha
        rw [show beforeChar ':' (':' :: t) = [] from
          List.takeWhile_cons_of_neg (by simp)] at hc2
        exact hc2 rfl
      · rw [show beforeChar ':' (a :: t) = a :: beforeChar ':' t from
          List.takeWhile_cons_of_pos (by simpa using ha)] at hc3
        simp only [List.headD_cons] at hc3 h
        rw [h] at hc3
        cases hc3
  · have := List.all_eq_true.mp hc4 d hd
    rw [hbad] at this
    cases this

theorem dropWhile_dropWhile (p : Char → Bool) (l : List Char) :
    (l.dropWhile p).dropWhile p = l.dropWhile p := by
  cases h : l.dropWhile p with
  | nil => rfl
  | cons a t =>
    have := dropWhile_head_not p l 'a' (by rw [h]; simp)
    rw [h] at this
    simp only [List.headD_cons] at this
    rw [List.dropWhile_cons_of_neg (by simp [this])]

theorem rstrip_rstrip (cs l : List Char) :
    rstripL cs (rstripL cs l) = rstripL cs l := by
  unfold rstripL
  rw [List.reverse_reverse, dropWhile_dropWhile]

theorem rstrip_headD (cs l : List Char) (d : Char) (h : rstripL cs l ≠ []) :
    l.headD d = (rstripL cs l).headD d := by
  obtain ⟨rest, hrest⟩ := rstrip_decomp cs l
  conv_lhs => rw [hrest]
  exact headD_append_of_ne rest d h

theorem mem_rstrip {c : Char} {cs l : List Char} (h : c ∈ rstripL cs l) :
    c ∈ l := by
  obtain ⟨rest, hrest⟩ := rstrip_decomp cs l
  rw [hrest]
  exact List.mem_append_left _ h

theorem rstrip_eq_nil {cs l : List Char} (h : rstripL cs l = []) :
    ∀ c ∈ l, c ∈ cs := by
  intro c hc
  unfold rstripL at h
  have h2 : l.reverse.dropWhile (· ∈ cs) = [] := by
    have := congrArg List.reverse h
    simpa using this
  have := List.dropWhile_eq_nil_iff.mp h2
  simpa using this c (by simpa using hc)

theorem rstrip_ne_nil_of_mem {c : Char} {cs l : List Char} (hc : c ∈ l)
    (hcs : c ∉ cs) : rstripL cs l ≠ [] := by
  intro h
  exact hcs (rstrip_eq_nil h c hc)

theorem rstrip_append_all (cs a b : List Char) (h : ∀ c ∈ b, c ∈ cs) :
    rstripL cs (a ++ b) = rstripL cs a := by
  unfold rstripL
  rw [List.reverse_append, dropWhile_append_all _ _ _
    (fun c hc => by simpa using h c (by simpa using hc))]

theorem pNorm_ne_nil (p : List Char) : pNorm p ≠ [] := by
  unfold pNorm
  by_cases h : rstripL ['/'] p = []
  · rw [if_pos h]; simp
  · rw [if_neg h]; exact h

theorem mem_pNorm {c : Char} {p : List Char} (h : c ∈ pNorm p) :
    c ∈ p ∨ c = '/' := by
  unfold pNorm at h
  by_cases h0 : rstripL ['/'] p = []
  · rw [if_pos h0] at h
    right
    simpa using h
  · rw [if_neg h0] at h
    left
    exact mem_rstrip h

theorem pNorm_pNorm (p : List Char) : pNorm (pNorm p) = pNorm p := by
  unfold pNorm
  by_cases h0 : rstripL ['/'] p = []
  · rw [if_pos h0, if_pos (show rstripL ['/'] ['/'] = [] by decide)]
  · rw [if_neg h0, if_neg (by rw [rstrip_rstrip]; exact h0), rstrip_rstrip]

theorem pNorm_slash_cons (x : List Char) (hs : rstripL ['/'] x = x)
    (hne : x ≠ []) : pNorm ('/' :: x) = '/' :: x := by
  have hx : rstripL ['/'] x ≠ [] := by rw [hs]; exact hne
  have h1 : rstripL ['/'] ('/' :: x) = '/' :: x := by
    have := rstrip_append_of_ne ['/'] ['/'] x hx
    rw [hs] at this
    simpa using this
  unfold pNorm
  rw [if_neg (by rw [h1]; simp), h1]

theorem mem_splitAmpGo {c : Char} {x acc l : List Char}
    (hx : x ∈ splitAmpGo acc l) (hc : c ∈ x) : c ∈ acc ∨ c ∈ l := by
  induction l generalizing acc with
  | nil =>
    simp only [splitAmpGo, List.mem_singleton] at hx
    subst hx
    left
    simpa using hc
  | cons a t ih =>
    rw [splitAmpGo] at hx
    by_cases ha : a = '&'
    · rw [if_pos ha] at hx
      rcases List.mem_cons.mp hx with h1 | h2
      · subst h1
        left
        simpa using hc
      · rcases ih h2 with h3 | h3
        · exact absurd h3 (List.not_mem_nil c)
        · exact Or.inr (List.mem_cons_of_mem _ h3)
    · rw [if_neg ha] at hx
      rcases ih hx with h3 | h3
      · rcases List.mem_cons.mp h3 with h4 | h4
        · exact Or.inr (h4 ▸ List.mem_cons_self a t)
        · exact Or.inl h4
      · exact Or.inr (List.mem_cons_of_mem _ h3)

theorem splitAmpGo_no_amp {acc l : List Char} (hl : '&' ∉ l) :
    splitAmpGo acc l = [acc.reverse ++ l] := by
  induction l generalizing acc with
  | nil => simp [splitAmpGo]
  | cons a t ih =>
    have ha : a ≠ '&' := by rintro rfl; exact hl (List.mem_cons_self _ _)
    rw [splitAmpGo, if_neg ha, ih (fun hm => hl (List.mem_cons_of_mem _ hm))]
    simp

theorem splitAmpGo_amp (acc x r : List Char) (hx : '&' ∉ x) :
    splitAmpGo acc (x ++ '&' :: r) = (acc.reverse ++ x) :: splitAmpGo [] r := by
  induction x generalizing acc with
  | nil =>
    rw [List.nil_append, splitAmpGo, if_pos rfl]
    simp
  | cons a t ih =>
    have ha : a ≠ '&' := by rintro rfl; exact hx (List.mem_cons_self _ _)
    rw [List.cons_append, splitAmpGo, if_neg ha,
      ih _ (fun hm => hx (List.mem_cons_of_mem _ hm))]
    simp

theorem splitAmpGo_free {x acc l : List Char} (hacc : '&' ∉ acc)
    (hx : x ∈ splitAmpGo acc l) : '&' ∉ x := by
  induction l generalizing acc with
  | nil =>
    simp only [splitAmpGo, List.mem_singleton] at hx
    subst hx
    simpa using hacc
  | cons a t ih =>
    rw [splitAmpGo] at hx
    by_cases ha : a = '&'
    · rw [if_pos ha] at hx
      rcases List.mem_cons.mp hx with h1 | h2
      · subst h1
        simpa using hacc
      · exact ih (by simp) h2
    · rw [if_neg ha] at hx
      refine ih ?_ hx
      intro hm
      rcases List.mem_cons.mp hm with h1 | h1
      · exact ha h1.symm
      · exact hacc h1

theorem splitAmp_joinAmp (parts : List (List Char)) (hne : parts ≠ [])
    (hfree : ∀ x ∈ parts, '&' ∉ x) :
    splitAmp (joinAmp parts) = parts := by
  induction parts with
  | nil => exact absurd rfl hne
  | cons x t ih =>
    cases t with
    | nil =>
      show splitAmp (joinAmp [x]) = [x]
      rw [joinAmp]
      unfold splitAmp
      rw [splitAmpGo_no_amp (hfree x (List.mem_cons_self _ _))]
      simp
    | cons y t2 =>
      show splitAmp (joinAmp (x :: y :: t2)) = x :: y :: t2
      rw [joinAmp]
      unfold splitAmp
      rw [splitAmpGo_amp _ _ _ (hfree x (List.mem_cons_self _ _))]
      simp only [List.reverse_nil, List.nil_append]
      have := ih (by simp) (fun z hz => hfree z (List.mem_cons_of_mem _ hz))
      unfold splitAmp at this
      rw [this]

theorem filter_self (p : List Char → Bool) (l : List (List Char)) :
    (l.filter p).filter p = l.filter p := by
  induction l with
  | nil => rfl
  | cons a t ih =>
    cases hpa : p a with
    | false => rw [List.filter_cons_of_neg (by simp [hpa]), ih]
    | true => rw [List.filter_cons_of_pos hpa, List.filter_cons_of_pos hpa, ih]

theorem mem_joinAmp {c : Char} {parts : List (List Char)}
    (h : c ∈ joinAmp parts) : (∃ x ∈ parts, c ∈ x) ∨ c = '&' := by
  induction parts with
  | nil => simp [joinAmp] at h
  | cons x t ih =>
    cases t with
    | nil =>
      rw [joinAmp] at h
      exact Or.inl ⟨x, List.mem_cons_self _ _, h⟩
    | cons y t2 =>
      rw [joinAmp] at h
      rcases List.mem_append.mp h with h1 | h1
      · exact Or.inl ⟨x, List.mem_cons_self _ _, h1⟩
      · rcases List.mem_cons.mp h1 with h2 | h2
        · exact Or.inr h2
        · rcases ih h2 with ⟨z, hz, hcz⟩ | h3
          · exact Or.inl ⟨z, List.mem_cons_of_mem _ hz, hcz⟩
          · exact Or.inr h3

theorem mem_qNorm {c : Char} {q : List Char} (h : c ∈ qNorm q) :
    c ∈ q ∨ c = '&' := by
  unfold qNorm at h
  by_cases hq : q = []
  · subst hq
    rw [if_neg (by simp)] at h
    simp at h
  · rw [if_pos hq] at h
    rcases mem_joinAmp h with ⟨x, hx, hcx⟩ | hc
    · rcases mem_splitAmpGo (List.mem_of_mem_filter hx) hcx with h1 | h1
      · exact absurd h1 (List.not_mem_nil c)
      · exact Or.inl h1
    · exact Or.inr hc

theorem qNorm_qNorm (q : List Char) : qNorm (qNorm q) = qNorm q := by
  by_cases hq : q = []
  · subst hq
    rfl
  · have hqn : qNorm q = joinAmp ((splitAmp q).filter
        (fun prm => ¬ trackParams.contains ⟨lowerL (beforeChar '=' prm)⟩)) := by
      unfold qNorm
      rw [if_pos hq]
    by_cases h2 : qNorm q = []
    · rw [h2]
      rfl
    · have hpne : (splitAmp q).filter
          (fun prm => ¬ trackParams.contains ⟨lowerL (beforeChar '=' prm)⟩) ≠ [] := by
        intro h0
        rw [hqn, h0] at h2
        exact h2 rfl
      have hfree : ∀ x ∈ (splitAmp q).filter
          (fun prm => ¬ trackParams.contains ⟨lowerL (beforeChar '=' prm)⟩), '&' ∉ x :=
        fun x hx => splitAmpGo_free (by simp) (List.mem_of_mem_filter hx)
      rw [hqn]
      unfold qNorm
      rw [if_pos (hqn ▸ h2)]
      rw [splitAmp_joinAmp _ hpne hfree, filter_self]

theorem startsWithL_nil (l : List Char) : startsWithL l [] = true := by
  cases l <;> rfl

theorem startsWith2_append (x y : List Char) (hxne : x ≠ [])
    (hx : startsWithL x ['/', '/'] = false)
    (hy : y = [] ∨ y.headD ' ' = '?') :
    startsWithL (x ++ y) ['/', '/'] = false := by
  cases x with
  | nil => exact absurd rfl hxne
  | cons a t =>
    cases t with
    | nil =>
      rcases hy with rfl | hy
      · simpa using hx
      · cases y with
        | nil => simpa using hx
        | cons b t2 =>
          simp only [List.headD_cons] at hy
          subst hy
          simp [startsWithL]
    | cons b t2 =>
      simp only [List.cons_append, startsWithL, startsWithL_nil,
        Bool.and_true] at hx ⊢
      exact hx

theorem attachQ (url qn : List Char) :
    (if qn ≠ [] then url ++ '?' :: qn else url) =
      url ++ (if qn = [] then [] else '?' :: qn) := by
  by_cases h : qn = []
  · rw [if_neg (by simp [h]), if_pos h, List.append_nil]
  · rw [if_pos h, if_neg h]

theorem attachS (s url : List Char) :
    (if s ≠ [] then s ++ ':' :: url else url) =
      (if s = [] then [] else s ++ [':']) ++ url := by
  by_cases h : s = []
  · rw [if_neg (by simp [h]), if_pos h, List.nil_append]
  · rw [if_pos h, if_neg h, List.append_assoc]
    rfl

theorem schemeSplit_fst_nil {l s rest : List Char}
    (h : schemeSplit l = (s, rest)) (hs : s = []) :
    ':' ∉ l ∨ isAlphaC (l.headD ':') = false ∨
      ∃ d ∈ beforeChar ':' l, isSchemeC d = false := by
  subst hs
  by_cases h1 : ':' ∈ l
  case neg => exact Or.inl h1
  case pos =>
    unfold schemeSplit at h
    dsimp only [] at h
    by_cases hc : (beforeChar ':' l).length < l.length ∧ beforeChar ':' l ≠ [] ∧
        isAlphaC ((beforeChar ':' l).headD ' ') = true ∧
        (beforeChar ':' l).all isSchemeC = true
    · rw [if_pos hc] at h
      have h2 : lowerL (beforeChar ':' l) = [] := congrArg Prod.fst h
      have h3 : beforeChar ':' l = [] := List.map_eq_nil_iff.mp h2
      exact absurd h3 hc.2.1
    · by_cases h2 : beforeChar ':' l = []
      · right; left
        cases l with
        | nil => cases h1
        | cons a t =>
          by_cases ha : a = ':'
          · subst ha
            simp only [List.headD_cons]
            decide
          · rw [show beforeChar ':' (a :: t) = a :: beforeChar ':' t from
              List.takeWhile_cons_of_pos (by simpa using ha)] at h2
            simp at h2
      · by_cases h3 : isAlphaC ((beforeChar ':' l).headD ' ') = true
        · right; right
          have h4 : ¬ (beforeChar ':' l).all isSchemeC = true := by
            intro h5
            exact hc ⟨beforeChar_length_lt h1, h2, h3, h5⟩
          rw [List.all_eq_true] at h4
          push_neg at h4
          obtain ⟨d, hd, hbad⟩ := h4
          exact ⟨d, hd, by simpa using hbad⟩
        · right; left
          cases l with
          | nil => cases h1
          | cons a t =>
            by_cases ha : a = ':'
            · subst ha
              simp only [List.headD_cons]
              decide
            · rw [show beforeChar ':' (a :: t) = a :: beforeChar ':' t from
                List.takeWhile_cons_of_pos (by simpa using ha)] at h3
              simp only [List.headD_cons] at h3 ⊢
              simpa using h3

theorem schemeFail_transfer (u1 qn : List Char)
    (hfail : ':' ∉ u1 ∨ isAlphaC (u1.headD ':') = false ∨
      ∃ d ∈ beforeChar ':' u1, isSchemeC d = false)
    (hqn : ∀ c ∈ qn, c ∈ afterChar '?' u1 ∨ c = '&')
    (x v : List Char) (hx : x = pNorm (beforeChar '?' u1))
    (hv : v = x ++ (if qn = [] then [] else '?' :: qn)) :
    ':' ∉ v ∨ isAlphaC (v.headD ':') = false ∨
      ∃ d ∈ beforeChar ':' v, isSchemeC d = false := by
  have hxne : x ≠ [] := hx ▸ pNorm_ne_nil _
  rcases hfail with h1 | h2 | ⟨d, hd, hbad⟩
  · left
    rw [hv, hx]
    intro hmem
    rcases List.mem_append.mp hmem with hm | hm
    · rcases mem_pNorm hm with hm2 | hm2
      · exact h1 (mem_beforeChar hm2)
      · exact absurd hm2 (by decide)
    · by_cases hq : qn = []
      · rw [if_pos hq] at hm
        exact absurd hm (List.not_mem_nil _)
      · rw [if_neg hq] at hm
        rcases List.mem_cons.mp hm with hm2 | hm2
        · exact absurd hm2 (by decide)
        · rcases hqn ':' hm2 with hm3 | hm3
          · exact h1 (mem_afterChar hm3)
          · exact absurd hm3 (by decide)
  · right; left
    rw [hv, headD_append_of_ne _ ':' hxne, hx]
    by_cases h0 : rstripL ['/'] (beforeChar '?' u1) = []
    · rw [pNorm, if_pos h0]
      decide
    · rw [pNorm, if_neg h0, ← rstrip_headD _ _ ':' h0]
      cases u1 with
      | nil => exact absurd rfl h0
      | cons a t =>
        by_cases ha : a = '?'
        · subst ha
          rw [show beforeChar '?' ('?' :: t) = [] from
            List.takeWhile_cons_of_neg (by simp)] at h0
          exact absurd rfl h0
        · rw [show beforeChar '?' (a :: t) = a :: beforeChar '?' t from
            List.takeWhile_cons_of_pos (by simpa using ha)]
          simp only [List.headD_cons] at h2 ⊢
          exact h2
  · by_cases hcp : ':' ∈ beforeChar '?' u1
    · right; right
      have hpd : beforeChar '?' u1 =
          beforeChar ':' (beforeChar '?' u1) ++ ':' ::
            afterChar ':' (beforeChar '?' u1) := beforeChar_decomp hcp
      have hu1d : u1 = beforeChar '?' u1 ++ (u1.dropWhile (· ≠ '?')) :=
        (List.takeWhile_append_dropWhile _ u1).symm
      have hpre : beforeChar ':' u1 = beforeChar ':' (beforeChar '?' u1) := by
        conv_lhs => rw [hu1d, hpd]
        rw [List.append_assoc, List.cons_append]
        exact beforeChar_append_cons _ _ (self_not_mem_beforeChar _ _)
      have hrne : rstripL ['/'] (beforeChar '?' u1) ≠ [] :=
        rstrip_ne_nil_of_mem hcp (by decide)
      have hxd : ∃ w, x = beforeChar ':' (beforeChar '?' u1) ++ ':' :: w := by
        rw [hx, pNorm, if_neg hrne]
        by_cases ht : rstripL ['/'] (afterChar ':' (beforeChar '?' u1)) = []
        · refine ⟨[], ?_⟩
          conv_lhs => rw [hpd]
          rw [show beforeChar ':' (beforeChar '?' u1) ++ ':' ::
              afterChar ':' (beforeChar '?' u1) =
              (beforeChar ':' (beforeChar '?' u1) ++ [':']) ++
              afterChar ':' (beforeChar '?' u1) by
            rw [List.append_assoc]; rfl]
          rw [rstrip_append_all _ _ _ (rstrip_eq_nil ht),
            rstrip_append_of_ne _ _ _ (show rstripL ['/'] [':'] ≠ [] by decide)]
          rw [show rstripL ['/'] [':'] = [':'] by decide]
        · refine ⟨rstripL ['/'] (afterChar ':' (beforeChar '?' u1)), ?_⟩
          conv_lhs => rw [hpd]
          rw [show beforeChar ':' (beforeChar '?' u1) ++ ':' ::
              afterChar ':' (beforeChar '?' u1) =
              (beforeChar ':' (beforeChar '?' u1) ++ [':']) ++
              afterChar ':' (beforeChar '?' u1) by
            rw [List.append_assoc]; rfl]
          rw [rstrip_append_of_ne _ _ _ ht, List.append_assoc]
          rfl
      obtain ⟨w, hw⟩ := hxd
      refine ⟨d, ?_, hbad⟩
      rw [hv, hw, List.append_assoc, List.cons_append,
        beforeChar_append_cons _ _ (self_not_mem_beforeChar _ _)]
      rw [hpre] at hd
      exact hd
    · by_cases hcv : ':' ∈ v
      · right; right
        have hcx : ':' ∉ x := by
          rw [hx]
          intro hm
          rcases mem_pNorm hm with hm2 | hm2
          · exact hcp hm2
          · exact absurd hm2 (by decide)
        have hq : qn ≠ [] := by
          intro h0
          rw [hv, h0, if_pos rfl, List.append_nil] at hcv
          exact hcx hcv
        refine ⟨'?', ?_, by decide⟩
        rw [hv, if_neg hq, beforeChar_append _ _ hcx]
        rw [show beforeChar ':' ('?' :: qn) = '?' :: beforeChar ':' qn from
          List.takeWhile_cons_of_pos (by simp)]
        exact List.mem_append_right _ (List.mem_cons_self _ _)
      · exact Or.inl hcv

theorem cleanL_append {a b : List Char}
    (ha : ∀ d ∈ a, ¬(d = '\t' ∨ d = '\x0d' ∨ d = '\n'))
    (hb : ∀ d ∈ b, ¬(d = '\t' ∨ d = '\x0d' ∨ d = '\n')) :
    ∀ d ∈ a ++ b, ¬(d = '\t' ∨ d = '\x0d' ∨ d = '\n') := by
  intro d hd
  rcases List.mem_append.mp hd with h | h
  · exact ha d h
  · exact hb d h

theorem cleanL_cons {c : Char} {b : List Char}
    (hc : ¬(c = '\t' ∨ c = '\x0d' ∨ c = '\n'))
    (hb : ∀ d ∈ b, ¬(d = '\t' ∨ d = '\x0d' ∨ d = '\n')) :
    ∀ d ∈ c :: b, ¬(d = '\t' ∨ d = '\x0d' ∨ d = '\n') := by
  intro d hd
  rcases List.mem_cons.mp hd with rfl | h
  · exact hc
  · exact hb d h

theorem hash_append {a b : List Char} (ha : '#' ∉ a) (hb : '#' ∉ b) :
    '#' ∉ a ++ b := by
  intro h
  rcases List.mem_append.mp h with h | h
  · exact ha h
  · exact hb h

theorem hash_cons {c : Char} {b : List Char} (hc : c ≠ '#') (hb : '#' ∉ b) :
    '#' ∉ c :: b := by
  intro h
  rcases List.mem_cons.mp h with h | h
  · exact hc h.symm
  · exact hb h

theorem isAlphaC_toNat {c : Char} (h : isAlphaC c = true) : 32 < c.toNat := by
  unfold isAlphaC at h
  rw [Bool.or_eq_true, decide_eq_true_eq, decide_eq_true_eq] at h
  rcases h with ⟨h1, _⟩ | ⟨h1, _⟩
  · have h2 := toNat_of_charLe h1
    have h3 : ('a').toNat = 97 := rfl
    omega
  · have h2 := toNat_of_charLe h1
    have h3 : ('A').toNat = 65 := rfl
    omega

theorem optQ_clean {qn : List Char}
    (hcq : ∀ d ∈ qn, ¬(d = '\t' ∨ d = '\x0d' ∨ d = '\n')) :
    ∀ d ∈ (if qn = [] then [] else '?' :: qn),
      ¬(d = '\t' ∨ d = '\x0d' ∨ d = '\n') := by
  by_cases hq : qn = []
  · rw [if_pos hq]
    intro d hd
    exact absurd hd (List.not_mem_nil d)
  · rw [if_neg hq]
    exact cleanL_cons (by decide) hcq

theorem optQ_hash {qn : List Char} (hhq : '#' ∉ qn) :
    '#' ∉ (if qn = [] then [] else '?' :: qn) := by
  by_cases hq : qn = []
  · rw [if_pos hq]
    exact List.not_mem_nil _
  · rw [if_neg hq]
    exact hash_cons (by decide) hhq

theorem optQ_shape (qn : List Char) :
    (if qn = [] then [] else '?' :: qn) = [] ∨
      ((if qn = [] then [] else '?' :: qn) : List Char).headD ' ' = '?' := by
  by_cases hq : qn = []
  · rw [if_pos hq]
    exact Or.inl rfl
  · rw [if_neg hq]
    exact Or.inr rfl

theorem pathSplit_opt (x qn : List Char) (hqx : '?' ∉ x) :
    beforeChar '?' (x ++ (if qn = [] then [] else '?' :: qn)) = x ∧
    afterChar '?' (x ++ (if qn = [] then [] else '?' :: qn)) = qn := by
  constructor
  · rw [beforeChar_append _ _ hqx]
    by_cases hq : qn = []
    · rw [if_pos hq, show beforeChar '?' ([] : List Char) = [] from rfl,
        List.append_nil]
    · rw [if_neg hq, show beforeChar '?' ('?' :: qn) = [] from
        List.takeWhile_cons_of_neg (by simp), List.append_nil]
  · rw [afterChar_append _ _ hqx]
    by_cases hq : qn = []
    · rw [if_pos hq, hq]
      rfl
    · rw [if_neg hq]
      unfold afterChar
      rw [List.dropWhile_cons_of_neg (by simp)]
      rfl

theorem netSplit_opt (n x qn : List Char)
    (hn : ∀ c ∈ n, ¬(c = '/' ∨ c = '?' ∨ c = '#'))
    (hxh : x.headD ' ' = '/') (hxne : x ≠ []) :
    (n ++ (x ++ (if qn = [] then [] else '?' :: qn))).takeWhile
      (fun c => ¬(c = '/' ∨ c = '?' ∨ c = '#')) = n ∧
    (n ++ (x ++ (if qn = [] then [] else '?' :: qn))).dropWhile
      (fun c => ¬(c = '/' ∨ c = '?' ∨ c = '#')) =
      x ++ (if qn = [] then [] else '?' :: qn) := by
  obtain ⟨a, t, rfl⟩ : ∃ a t, x = a :: t := by
    cases x with
    | nil => exact absurd rfl hxne
    | cons a t => exact ⟨a, t, rfl⟩
  simp only [List.headD_cons] at hxh
  subst hxh
  constructor
  · rw [takeWhile_append_all _ _ _ (fun c hc => by simpa using hn c hc),
      List.cons_append, List.takeWhile_cons_of_neg (by decide), List.append_nil]
  · rw [dropWhile_append_all _ _ _ (fun c hc => by simpa using hn c hc),
      List.cons_append, List.dropWhile_cons_of_neg (by decide)]

theorem splitCore_marker (s n x qn : List Char)
    (hs : s = [] ∨ (s ≠ [] ∧ isAlphaC (s.headD ' ') = true ∧
      s.all isSchemeC = true ∧ lowerL s = s))
    (hcs : ∀ d ∈ s, ¬(d = '\t' ∨ d = '\x0d' ∨ d = '\n'))
    (hcn : ∀ d ∈ n, ¬(d = '\t' ∨ d = '\x0d' ∨ d = '\n'))
    (hcx : ∀ d ∈ x, ¬(d = '\t' ∨ d = '\x0d' ∨ d = '\n'))
    (hcq : ∀ d ∈ qn, ¬(d = '\t' ∨ d = '\x0d' ∨ d = '\n'))
    (hhs : '#' ∉ s) (hhn : '#' ∉ n) (hhx : '#' ∉ x) (hhq : '#' ∉ qn)
    (hn : ∀ c ∈ n, ¬(c = '/' ∨ c = '?' ∨ c = '#'))
    (hxh : x.headD ' ' = '/') (hxne : x ≠ []) (hqx : '?' ∉ x) :
    urlsplitCore ((if s = [] then [] else s ++ [':']) ++
        '/' :: '/' :: (n ++ (x ++ (if qn = [] then [] else '?' :: qn)))) =
      (s, n, x, qn, []) := by
  have hcc : ∀ d ∈ '/' :: '/' ::
      (n ++ (x ++ (if qn = [] then [] else '?' :: qn))),
      ¬(d = '\t' ∨ d = '\x0d' ∨ d = '\n') :=
    cleanL_cons (by decide) (cleanL_cons (by decide)
      (cleanL_append hcn (cleanL_append hcx (optQ_clean hcq))))
  have hch : '#' ∉ '/' :: '/' ::
      (n ++ (x ++ (if qn = [] then [] else '?' :: qn))) :=
    hash_cons (by decide) (hash_cons (by decide)
      (hash_append hhn (hash_append hhx (optQ_hash hhq))))
  have hns := netSplit_opt n x qn hn hxh hxne
  have hps := pathSplit_opt x qn hqx
  rcases hs with rfl | ⟨hsne, hsa, hss, hsl⟩
  · rw [if_pos rfl, List.nil_append]
    unfold urlsplitCore
    dsimp only []
    rw [urlPre_eq_self _ hcc (by simp only [List.headD_cons]; decide)]
    rw [beforeChar_eq_self hch, afterChar_eq_nil hch]
    rw [schemeSplit_inval _ (Or.inr (Or.inl
      (by simp only [List.headD_cons]; decide)))]
    dsimp only []
    rw [if_pos (show startsWithL ('/' :: '/' ::
      (n ++ (x ++ (if qn = [] then [] else '?' :: qn)))) ['/', '/'] = true
      by simp [startsWithL])]
    rw [show ('/' :: '/' ::
      (n ++ (x ++ (if qn = [] then [] else '?' :: qn)))).drop 2 =
      n ++ (x ++ (if qn = [] then [] else '?' :: qn)) from rfl]
    rw [hns.1, hns.2]
    dsimp only []
    rw [hps.1, hps.2]
  · rw [if_neg hsne]
    rw [show (s ++ [':']) ++ '/' :: '/' ::
        (n ++ (x ++ (if qn = [] then [] else '?' :: qn))) =
        s ++ ':' :: '/' :: '/' ::
        (n ++ (x ++ (if qn = [] then [] else '?' :: qn))) by
      rw [List.append_assoc]; rfl]
    unfold urlsplitCore
    dsimp only []
    have hhd : 32 < (s.headD 'a').toNat := by
      cases s with
      | nil => exact absurd rfl hsne
      | cons a t => exact isAlphaC_toNat hsa
    rw [urlPre_eq_self _ (cleanL_append hcs (cleanL_cons (by decide) hcc))
      (by rw [headD_append_of_ne _ 'a' hsne]; exact hhd)]
    rw [beforeChar_eq_self (hash_append hhs (hash_cons (by decide) hch)),
      afterChar_eq_nil (hash_append hhs (hash_cons (by decide) hch))]
    rw [schemeSplit_valid s _ hsne hsa hss, hsl]
    dsimp only []
    rw [if_pos (show startsWithL ('/' :: '/' ::
      (n ++ (x ++ (if qn = [] then [] else '?' :: qn)))) ['/', '/'] = true
      by simp [startsWithL])]
    rw [show ('/' :: '/' ::
      (n ++ (x ++ (if qn = [] then [] else '?' :: qn)))).drop 2 =
      n ++ (x ++ (if qn = [] then [] else '?' :: qn)) from rfl]
    rw [hns.1, hns.2]
    dsimp only []
    rw [hps.1, hps.2]

theorem splitCore_plain_scheme (s x qn : List Char)
    (hsne : s ≠ []) (hsa : isAlphaC (s.headD ' ') = true)
    (hss : s.all isSchemeC = true) (hsl : lowerL s = s)
    (hcs : ∀ d ∈ s, ¬(d = '\t' ∨ d = '\x0d' ∨ d = '\n'))
    (hcx : ∀ d ∈ x, ¬(d = '\t' ∨ d = '\x0d' ∨ d = '\n'))
    (hcq : ∀ d ∈ qn, ¬(d = '\t' ∨ d = '\x0d' ∨ d = '\n'))
    (hhs : '#' ∉ s) (hhx : '#' ∉ x) (hhq : '#' ∉ qn)
    (hxne : x ≠ []) (hx2 : startsWithL x ['/', '/'] = false) (hqx : '?' ∉ x) :
    urlsplitCore (s ++ ':' ::
        (x ++ (if qn = [] then [] else '?' :: qn))) =
      (s, [], x, qn, []) := by
  have hcc : ∀ d ∈ x ++ (if qn = [] then [] else '?' :: qn),
      ¬(d = '\t' ∨ d = '\x0d' ∨ d = '\n') :=
    cleanL_append hcx (optQ_clean hcq)
  have hch : '#' ∉ x ++ (if qn = [] then [] else '?' :: qn) :=
    hash_append hhx (optQ_hash hhq)
  have hps := pathSplit_opt x qn hqx
  have hsw : startsWithL (x ++ (if qn = [] then [] else '?' :: qn))
      ['/', '/'] = false :=
    startsWith2_append x _ hxne hx2 (optQ_shape qn)
  unfold urlsplitCore
  dsimp only []
  have hhd : 32 < (s.headD 'a').toNat := by
    cases s with
    | nil => exact absurd rfl hsne
    | cons a t => exact isAlphaC_toNat hsa
  rw [urlPre_eq_self _ (cleanL_append hcs (cleanL_cons (by decide) hcc))
    (by rw [headD_append_of_ne _ 'a' hsne]; exact hhd)]
  rw [beforeChar_eq_self (hash_append hhs (hash_cons (by decide) hch)),
    afterChar_eq_nil (hash_append hhs (hash_cons (by decide) hch))]
  rw [schemeSplit_valid s _ hsne hsa hss, hsl]
  dsimp only []
  rw [if_neg (by rw [hsw]; simp)]
  dsimp only []
  rw [hps.1, hps.2]

theorem splitCore_plain_bare (x qn : List Char)
    (hcx : ∀ d ∈ x, ¬(d = '\t' ∨ d = '\x0d' ∨ d = '\n'))
    (hcq : ∀ d ∈ qn, ¬(d = '\t' ∨ d = '\x0d' ∨ d = '\n'))
    (hhx : '#' ∉ x) (hhq : '#' ∉ qn)
    (hxne : x ≠ []) (hx32 : 32 < (x.headD 'a').toNat)
    (hx2 : startsWithL x ['/', '/'] = false) (hqx : '?' ∉ x)
    (hfail : ':' ∉ (x ++ (if qn = [] then [] else '?' :: qn)) ∨
      isAlphaC ((x ++ (if qn = [] then [] else '?' :: qn)).headD ':') = false ∨
      ∃ d ∈ beforeChar ':' (x ++ (if qn = [] then [] else '?' :: qn)),
        isSchemeC d = false) :
    urlsplitCore (x ++ (if qn = [] then [] else '?' :: qn)) =
      ([], [], x, qn, []) := by
  have hcc : ∀ d ∈ x ++ (if qn = [] then [] else '?' :: qn),
      ¬(d = '\t' ∨ d = '\x0d' ∨ d = '\n') :=
    cleanL_append hcx (optQ_clean hcq)
  have hch : '#' ∉ x ++ (if qn = [] then [] else '?' :: qn) :=
    hash_append hhx (optQ_hash hhq)
  have hps := pathSplit_opt x qn hqx
  have hsw : startsWithL (x ++ (if qn = [] then [] else '?' :: qn))
      ['/', '/'] = false :=
    startsWith2_append x _ hxne hx2 (optQ_shape qn)
  unfold urlsplitCore
  dsimp only []
  rw [urlPre_eq_self _ hcc (by rw [headD_append_of_ne _ 'a' hxne]; exact hx32)]
  rw [beforeChar_eq_self hch, afterChar_eq_nil hch]
  rw [schemeSplit_inval _ hfail]
  dsimp only []
  rw [if_neg (by rw [hsw]; simp)]
  dsimp only []
  rw [hps.1, hps.2]

theorem beforeChar_headD (c : Char) (l : List Char) (d : Char)
    (h : beforeChar c l ≠ []) : (beforeChar c l).headD d = l.headD d := by
  cases l with
  | nil => exact absurd rfl h
  | cons a t =>
    by_cases ha : a = c
    · rw [show beforeChar c (a :: t) = [] from
        List.takeWhile_cons_of_neg (by simp [ha])] at h
      exact absurd rfl h
    · rw [show beforeChar c (a :: t) = a :: beforeChar c t from
        List.takeWhile_cons_of_pos (by simpa using ha)]
      rfl

theorem startsWith_slash_head {y : List Char} (h : y.headD ' ' ≠ '/') :
    startsWithL y ['/'] = false := by
  cases y with
  | nil => rfl
  | cons a t =>
    simp only [List.headD_cons] at h
    simp [startsWithL, startsWithL_nil, h]

theorem startsWith2_cons_slash {y : List Char} (h : y.headD ' ' ≠ '/') :
    startsWithL ('/' :: y) ['/', '/'] = false := by
  have h1 := startsWith_slash_head h
  simp only [startsWithL, h1, decide_True, Bool.true_and]

theorem schemeSplit_cases (l : List Char) :
    schemeSplit l = ([], l) ∨
    ∃ pre, schemeSplit l = (lowerL pre, l.drop (pre.length + 1)) ∧
      pre = beforeChar ':' l ∧ pre ≠ [] ∧ isAlphaC (pre.headD ' ') = true ∧
      pre.all isSchemeC = true := by
  unfold schemeSplit
  dsimp only []
  by_cases hc : (beforeChar ':' l).length < l.length ∧ beforeChar ':' l ≠ [] ∧
      isAlphaC ((beforeChar ':' l).headD ' ') = true ∧
      (beforeChar ':' l).all isSchemeC = true
  · rw [if_pos hc]
    exact Or.inr ⟨beforeChar ':' l, rfl, rfl, hc.2.1, hc.2.2.1, hc.2.2.2⟩
  · rw [if_neg hc]
    exact Or.inl rfl

theorem unsplit_marker_eq (s n y qn : List Char)
    (hmark : n ≠ [] ∨ (s ≠ [] ∧ (⟨s⟩ : String) ∈ usesNetloc ∧
      ¬ startsWithL y ['/', '/'] = true))
    (hyne : y ≠ []) :
    urlunsplitM s n y qn [] =
      (if s = [] then [] else s ++ [':']) ++
        '/' :: '/' :: (n ++ ((if y.headD ' ' = '/' then y else '/' :: y) ++
          (if qn = [] then [] else '?' :: qn))) := by
  unfold urlunsplitM
  dsimp only []
  rw [if_pos hmark]
  rw [if_neg (show ¬(([] : List Char) ≠ []) by simp)]
  rw [attachQ, attachS]
  by_cases hhd : y.headD ' ' = '/'
  · rw [if_neg (show ¬(y ≠ [] ∧ y.headD ' ' ≠ '/') from fun hcon => hcon.2 hhd),
      if_pos hhd]
    simp only [List.append_assoc, List.cons_append]
  · rw [if_pos (show y ≠ [] ∧ y.headD ' ' ≠ '/' from ⟨hyne, hhd⟩), if_neg hhd]
    simp only [List.append_assoc, List.cons_append]

theorem unsplit_plain_eq (s n y qn : List Char)
    (hmark : ¬(n ≠ [] ∨ (s ≠ [] ∧ (⟨s⟩ : String) ∈ usesNetloc ∧
      ¬ startsWithL y ['/', '/'] = true))) :
    urlunsplitM s n y qn [] =
      (if s = [] then [] else s ++ [':']) ++
        (y ++ (if qn = [] then [] else '?' :: qn)) := by
  unfold urlunsplitM
  dsimp only []
  rw [if_neg hmark]
  rw [if_neg (show ¬(([] : List Char) ≠ []) by simp)]
  rw [attachQ, attachS, List.append_assoc]

theorem mem_of_mem_takeWhile {c : Char} {p : Char → Bool} {l : List Char}
    (h : c ∈ l.takeWhile p) : c ∈ l := by
  rw [← List.takeWhile_append_dropWhile p l]
  exact List.mem_append_left _ h

theorem mem_of_mem_dropWhile {c : Char} {p : Char → Bool} {l : List Char}
    (h : c ∈ l.dropWhile p) : c ∈ l := by
  rw [← List.takeWhile_append_dropWhile p l]
  exact List.mem_append_right _ h

theorem headD_mem {l : List Char} (d : Char) (h : l ≠ []) : l.headD d ∈ l := by
  cases l with
  | nil => exact absurd rfl h
  | cons a t => exact List.mem_cons_self a t

theorem clean_lowerC {c : Char} (h : ¬(c = '\t' ∨ c = '\x0d' ∨ c = '\n')) :
    ¬(lowerC c = '\t' ∨ lowerC c = '\x0d' ∨ lowerC c = '\n') := by
  rw [lowerC_eq_iff (by decide), lowerC_eq_iff (by decide),
    lowerC_eq_iff (by decide)]
  exact h

theorem checked_of_core {v s n x qn : List Char}
    (hpar : urlsplitCore v = (s, n, x, qn, []))
    (hbr : containsSub n ['['] = containsSub n [']']) :
    urlsplitChecked v = some (s, n, x, qn, []) := by
  unfold urlsplitChecked
  dsimp only []
  rw [hpar]
  have hcnd : ¬(containsSub (s, n, x, qn, ([] : List Char)).2.1 ['['] ≠
      containsSub (s, n, x, qn, ([] : List Char)).2.1 [']']) := by
    dsimp only []
    rw [hbr]
    simp
  rw [if_neg hcnd]

/-- C7 (amended): `_normalize_url` is idempotent on every URL whose
parse does not yield an empty netloc with a canonicalized path starting
in `//`, and whose path carries no `;`. -/
theorem c7_amended (u : String) (h : normOk u = true) :
    normalize_url (normalize_url u) = normalize_url u := by
  rcases hsp : urlsplitChecked u.data with _ | ⟨s, n, p, q, f⟩
  · rw [normalize_url_none u hsp, normalize_url_none u hsp]
  · unfold normOk at h
    rw [hsp] at h
    have hsemi : ';' ∉ p := by
      intro hm
      simp [hm] at h
    have hmrk : n = [] → startsWithL (pNorm p) ['/', '/'] = false := by
      intro hn0
      by_contra hsw
      rw [Bool.not_eq_false] at hsw
      simp [hn0, hsw] at h
    have hchk := hsp
    unfold urlsplitChecked at hchk
    dsimp only [] at hchk
    by_cases hbc : containsSub (urlsplitCore u.data).2.1 ['['] ≠
        containsSub (urlsplitCore u.data).2.1 [']']
    · rw [if_pos hbc] at hchk
      simp at hchk
    rw [if_neg hbc] at hchk
    have hcore : urlsplitCore u.data = (s, n, p, q, f) := Option.some.inj hchk
    have hbr : containsSub n ['['] = containsSub n [']'] := by
      have h2 := not_ne_iff.mp hbc
      rw [hcore] at h2
      exact h2
    have hparse := hcore
    unfold urlsplitCore at hparse
    dsimp only [] at hparse
    simp only [Prod.mk.injEq] at hparse
    obtain ⟨hps, hpn, hpp, hpq, hpf⟩ := hparse
    have hcU1 : ∀ d ∈ beforeChar '#' (urlPre u.data),
        ¬(d = '\t' ∨ d = '\x0d' ∨ d = '\n') :=
      fun d hd => urlPre_clean (mem_beforeChar hd)
    have hhU1 : '#' ∉ beforeChar '#' (urlPre u.data) :=
      self_not_mem_beforeChar '#' _
    obtain ⟨rest, hss, hache⟩ : ∃ rest,
        schemeSplit (beforeChar '#' (urlPre u.data)) = (s, rest) ∧
        ((s = [] ∧ rest = beforeChar '#' (urlPre u.data)) ∨
         (s ≠ [] ∧ isAlphaC (s.headD ' ') = true ∧ s.all isSchemeC = true ∧
          lowerL s = s ∧ (∀ d ∈ s, ¬(d = '\t' ∨ d = '\x0d' ∨ d = '\n')) ∧
          '#' ∉ s ∧ ∀ c ∈ rest, c ∈ beforeChar '#' (urlPre u.data))) := by
      rcases schemeSplit_cases (beforeChar '#' (urlPre u.data)) with hss |
        ⟨pre, hss, hpre, hpne2, hpa, hpall⟩
      · rw [hss] at hps
        dsimp only [] at hps
        refine ⟨beforeChar '#' (urlPre u.data), ?_, Or.inl ⟨hps.symm, rfl⟩⟩
        rw [← hps]
        exact hss
      · rw [hss] at hps
        dsimp only [] at hps
        refine ⟨(beforeChar '#' (urlPre u.data)).drop (pre.length + 1), ?_,
          Or.inr ⟨?_, ?_, ?_, ?_, ?_, ?_, ?_⟩⟩
        · rw [hss, hps]
        · intro h0
          rw [← hps] at h0
          exact hpne2 (List.map_eq_nil_iff.mp h0)
        · rw [← hps, headD_lowerL pre ' ' hpne2]
          exact isAlphaC_lowerC_of hpa
        · rw [← hps]
          exact all_lowerL (fun c hc => isSchemeC_lowerC_of hc) hpall
        · rw [← hps]
          exact lowerL_lowerL pre
        · rw [← hps]
          intro d hd
          unfold lowerL at hd
          rw [List.mem_map] at hd
          obtain ⟨c, hc, rfl⟩ := hd
          exact clean_lowerC (hcU1 c (mem_beforeChar (hpre ▸ hc)))
        · rw [← hps]
          intro hm
          rw [mem_lowerL (by decide)] at hm
          exact hhU1 (mem_beforeChar (hpre ▸ hm))
        · intro c hc
          exact List.drop_subset _ _ hc
    have hrsub : ∀ c ∈ rest, c ∈ beforeChar '#' (urlPre u.data) := by
      rcases hache with ⟨_, hrU⟩ | ⟨_, _, _, _, _, _, hsub⟩
      · rw [hrU]
        exact fun c hc => hc
      · exact hsub
    rw [hss] at hpn hpp hpq
    dsimp only [] at hpn hpp hpq
    have hbundle :
        (∀ c ∈ n, ¬(c = '/' ∨ c = '?' ∨ c = '#')) ∧
        (∀ c ∈ n, c ∈ beforeChar '#' (urlPre u.data)) ∧
        '?' ∉ p ∧
        (∀ c ∈ p, c ∈ beforeChar '#' (urlPre u.data)) ∧
        (∀ c ∈ q, c ∈ beforeChar '#' (urlPre u.data)) ∧
        (s = [] → 32 < ((pNorm p).headD 'a').toNat) ∧
        (s = [] → n = [] →
          ':' ∉ (pNorm p ++ (if qNorm q = [] then [] else '?' :: qNorm q)) ∨
          isAlphaC ((pNorm p ++
            (if qNorm q = [] then [] else '?' :: qNorm q)).headD ':') = false ∨
          ∃ d ∈ beforeChar ':' (pNorm p ++
            (if qNorm q = [] then [] else '?' :: qNorm q)),
            isSchemeC d = false) := by
      by_cases hmk : startsWithL rest ['/', '/'] = true
      · rw [if_pos hmk] at hpn hpp hpq
        dsimp only [] at hpn hpp hpq
        have hpd : ∀ d : Char, rstripL ['/'] p ≠ [] → p.headD d = '/' := by
          intro d h0
          have hpne3 : p ≠ [] := fun he => h0 (by rw [he]; rfl)
          rw [← hpp] at hpne3 ⊢
          rw [beforeChar_headD _ _ _ hpne3]
          have hr2ne : (rest.drop 2).dropWhile
              (fun c => ¬(c = '/' ∨ c = '?' ∨ c = '#')) ≠ [] := by
            intro he
            rw [he] at hpne3
            exact hpne3 rfl
          have hsep := dropWhile_head_not _ (rest.drop 2) d hr2ne
          rw [decide_eq_false_iff_not, not_not] at hsep
          rcases hsep with h1 | h1 | h1
          · exact h1
          · exfalso
            apply hpne3
            cases hdw : (rest.drop 2).dropWhile
                (fun c => ¬(c = '/' ∨ c = '?' ∨ c = '#')) with
            | nil => rfl
            | cons a t =>
              rw [hdw] at h1
              simp only [List.headD_cons] at h1
              subst h1
              exact List.takeWhile_cons_of_neg (by simp)
          · exfalso
            have hin : '#' ∈ (rest.drop 2).dropWhile
                (fun c => ¬(c = '/' ∨ c = '?' ∨ c = '#')) := by
              have h2 := headD_mem d hr2ne
              rw [h1] at h2
              exact h2
            exact hhU1 (hrsub '#'
              (List.drop_subset _ _ (mem_of_mem_dropWhile hin)))
        refine ⟨?_, ?_, ?_, ?_, ?_, ?_, ?_⟩
        · intro c hc
          rw [← hpn] at hc
          simpa using List.mem_takeWhile_imp hc
        · intro c hc
          rw [← hpn] at hc
          exact hrsub c (List.drop_subset _ _ (mem_of_mem_takeWhile hc))
        · rw [← hpp]
          exact self_not_mem_beforeChar _ _
        · intro c hc
          rw [← hpp] at hc
          exact hrsub c (List.drop_subset _ _
            (mem_of_mem_dropWhile (mem_beforeChar hc)))
        · intro c hc
          rw [← hpq] at hc
          exact hrsub c (List.drop_subset _ _
            (mem_of_mem_dropWhile (mem_afterChar hc)))
        · intro _
          by_cases h0 : rstripL ['/'] p = []
          · rw [pNorm, if_pos h0]
            decide
          · rw [pNorm, if_neg h0, ← rstrip_headD _ _ 'a' h0, hpd 'a' h0]
            decide
        · intro _ _
          right; left
          rw [headD_append_of_ne _ ':' (pNorm_ne_nil p)]
          by_cases h0 : rstripL ['/'] p = []
          · rw [pNorm, if_pos h0]
            decide
          · rw [pNorm, if_neg h0, ← rstrip_headD _ _ ':' h0, hpd ':' h0]
            decide
      · rw [if_neg hmk] at hpn hpp hpq
        dsimp only [] at hpn hpp hpq
        refine ⟨?_, ?_, ?_, ?_, ?_, ?_, ?_⟩
        · intro c hc
          rw [← hpn] at hc
          exact absurd hc (List.not_mem_nil c)
        · intro c hc
          rw [← hpn] at hc
          exact absurd hc (List.not_mem_nil c)
        · rw [← hpp]
          exact self_not_mem_beforeChar _ _
        · intro c hc
          rw [← hpp] at hc
          exact hrsub c (mem_beforeChar hc)
        · intro c hc
          rw [← hpq] at hc
          exact hrsub c (mem_afterChar hc)
        · intro hs0
          have hrU : rest = beforeChar '#' (urlPre u.data) := by
            rcases hache with ⟨_, hrU⟩ | ⟨hsne2, _⟩
            · exact hrU
            · exact absurd hs0 hsne2
          by_cases h0 : rstripL ['/'] p = []
          · rw [pNorm, if_pos h0]
            decide
          · rw [pNorm, if_neg h0, ← rstrip_headD _ _ 'a' h0]
            have hpne3 : p ≠ [] := fun he => h0 (by rw [he]; rfl)
            rw [← hpp] at hpne3 ⊢
            rw [hrU] at hpne3 ⊢
            rw [beforeChar_headD _ _ _ hpne3]
            have hU1ne : beforeChar '#' (urlPre u.data) ≠ [] := by
              intro he
              rw [he] at hpne3
              exact hpne3 rfl
            rw [beforeChar_headD _ _ _ hU1ne]
            apply urlPre_head
            intro he
            rw [he] at hU1ne
            exact hU1ne rfl
        · intro hs0 hn0
          have hrU : rest = beforeChar '#' (urlPre u.data) := by
            rcases hache with ⟨_, hrU⟩ | ⟨hsne2, _⟩
            · exact hrU
            · exact absurd hs0 hsne2
          refine schemeFail_transfer (beforeChar '#' (urlPre u.data))
            (qNorm q) ?_ ?_ (pNorm p) _ ?_ rfl
          · exact schemeSplit_fst_nil hss hs0
          · intro c hc
            rcases mem_qNorm hc with h1 | h1
            · rw [← hpq, hrU] at h1
              exact Or.inl h1
            · exact Or.inr h1
          · rw [← hpp, hrU]
    obtain ⟨hnsep, hnsub, hqp, hpsub, hqsub, hhead32, hfailD⟩ := hbundle
    have hsopt : s = [] ∨ (s ≠ [] ∧ isAlphaC (s.headD ' ') = true ∧
        s.all isSchemeC = true ∧ lowerL s = s) := by
      rcases hache with ⟨hs0, _⟩ | ⟨h1, h2, h3, h4, _⟩
      · exact Or.inl hs0
      · exact Or.inr ⟨h1, h2, h3, h4⟩
    have hcs : ∀ d ∈ s, ¬(d = '\t' ∨ d = '\x0d' ∨ d = '\n') := by
      rcases hache with ⟨hs0, _⟩ | ⟨_, _, _, _, h5, _⟩
      · rw [hs0]
        intro d hd
        exact absurd hd (List.not_mem_nil d)
      · exact h5
    have hhs : '#' ∉ s := by
      rcases hache with ⟨hs0, _⟩ | ⟨_, _, _, _, _, h6, _⟩
      · rw [hs0]
        exact List.not_mem_nil _
      · exact h6
    have hcn : ∀ d ∈ n, ¬(d = '\t' ∨ d = '\x0d' ∨ d = '\n') :=
      fun d hd => hcU1 d (hnsub d hd)
    have hhn : '#' ∉ n := fun hm => hhU1 (hnsub '#' hm)
    have hcp : ∀ d ∈ p, ¬(d = '\t' ∨ d = '\x0d' ∨ d = '\n') :=
      fun d hd => hcU1 d (hpsub d hd)
    have hhp : '#' ∉ p := fun hm => hhU1 (hpsub '#' hm)
    have hcq : ∀ d ∈ q, ¬(d = '\t' ∨ d = '\x0d' ∨ d = '\n') :=
      fun d hd => hcU1 d (hqsub d hd)
    have hhq2 : '#' ∉ q := fun hm => hhU1 (hqsub '#' hm)
    have hcpn : ∀ d ∈ pNorm p, ¬(d = '\t' ∨ d = '\x0d' ∨ d = '\n') := by
      intro d hd
      rcases mem_pNorm hd with h1 | rfl
      · exact hcp d h1
      · decide
    have hhpn : '#' ∉ pNorm p := by
      intro hm
      rcases mem_pNorm hm with h1 | h1
      · exact hhp h1
      · exact absurd h1 (by decide)
    have hqpn : '?' ∉ pNorm p := by
      intro hm
      rcases mem_pNorm hm with h1 | h1
      · exact hqp h1
      · exact absurd h1 (by decide)
    have hcqn : ∀ d ∈ qNorm q, ¬(d = '\t' ∨ d = '\x0d' ∨ d = '\n') := by
      intro d hd
      rcases mem_qNorm hd with h1 | rfl
      · exact hcq d h1
      · decide
    have hhqn : '#' ∉ qNorm q := by
      intro hm
      rcases mem_qNorm hm with h1 | h1
      · exact hhq2 h1
      · exact absurd h1 (by decide)
    rw [normalize_url_some u s n p q f hsp]
    by_cases hmark : n ≠ [] ∨ (s ≠ [] ∧ (⟨s⟩ : String) ∈ usesNetloc ∧
        ¬ startsWithL (pNorm p) ['/', '/'] = true)
    · by_cases hhd : (pNorm p).headD ' ' = '/'
      · have hv := unsplit_marker_eq s n (pNorm p) (qNorm q) hmark
          (pNorm_ne_nil p)
        rw [if_pos hhd] at hv
        rw [hv]
        have hpar := splitCore_marker s n (pNorm p) (qNorm q) hsopt hcs hcn
          hcpn hcqn hhs hhn hhpn hhqn hnsep hhd (pNorm_ne_nil p) hqpn
        rw [normalize_url_some _ s n (pNorm p) (qNorm q) []
          (checked_of_core hpar hbr)]
        rw [pNorm_pNorm, qNorm_qNorm, hv]
      · have hv := unsplit_marker_eq s n (pNorm p) (qNorm q) hmark
          (pNorm_ne_nil p)
        rw [if_neg hhd] at hv
        rw [hv]
        have hpar := splitCore_marker s n ('/' :: pNorm p) (qNorm q) hsopt hcs
          hcn (cleanL_cons (by decide) hcpn) hcqn hhs hhn
          (hash_cons (by decide) hhpn) hhqn hnsep rfl (by simp)
          (by
            intro hm
            rcases List.mem_cons.mp hm with h1 | h1
            · exact absurd h1 (by decide)
            · exact hqpn h1)
        rw [normalize_url_some _ s n ('/' :: pNorm p) (qNorm q) []
          (checked_of_core hpar hbr)]
        have hstab : rstripL ['/'] (pNorm p) = pNorm p := by
          have h0 : rstripL ['/'] p ≠ [] := by
            intro he
            apply hhd
            rw [pNorm, if_pos he]
            rfl
          rw [pNorm, if_neg h0, rstrip_rstrip]
        rw [pNorm_slash_cons (pNorm p) hstab (pNorm_ne_nil p), qNorm_qNorm]
        have hmark2 : n ≠ [] ∨ (s ≠ [] ∧ (⟨s⟩ : String) ∈ usesNetloc ∧
            ¬ startsWithL ('/' :: pNorm p) ['/', '/'] = true) := by
          rcases hmark with h1 | ⟨h1, h2, _⟩
          · exact Or.inl h1
          · refine Or.inr ⟨h1, h2, ?_⟩
            rw [startsWith2_cons_slash hhd]
            simp
        have hv2 := unsplit_marker_eq s n ('/' :: pNorm p) (qNorm q) hmark2
          (by simp)
        rw [if_pos (show (('/' :: pNorm p) : List Char).headD ' ' = '/'
          from rfl)] at hv2
        rw [hv2]
    · have hn0 : n = [] := by
        by_contra hne
        exact hmark (Or.inl hne)
      have hsw0 : startsWithL (pNorm p) ['/', '/'] = false := hmrk hn0
      have hv := unsplit_plain_eq s n (pNorm p) (qNorm q) hmark
      rw [hv]
      subst hn0
      rcases hsopt with hs0 | ⟨hsne, hsa, hssC, hsl⟩
      · subst hs0
        rw [show (if ([] : List Char) = [] then ([] : List Char)
          else [] ++ [':']) = [] from rfl, List.nil_append]
        have hpar := splitCore_plain_bare (pNorm p) (qNorm q) hcpn hcqn hhpn
          hhqn (pNorm_ne_nil p) (hhead32 rfl) hsw0 hqpn (hfailD rfl rfl)
        rw [normalize_url_some _ [] [] (pNorm p) (qNorm q) []
          (checked_of_core hpar hbr)]
        rw [pNorm_pNorm, qNorm_qNorm]
        have hmark2 : ¬(([] : List Char) ≠ [] ∨ (([] : List Char) ≠ [] ∧
            (⟨([] : List Char)⟩ : String) ∈ usesNetloc ∧
            ¬ startsWithL (pNorm p) ['/', '/'] = true)) := by
          simp
        have hv2 := unsplit_plain_eq [] [] (pNorm p) (qNorm q) hmark2
        rw [hv2, show (if ([] : List Char) = [] then ([] : List Char)
          else [] ++ [':']) = [] from rfl, List.nil_append]
      · have hnm : (⟨s⟩ : String) ∉ usesNetloc := by
          intro hmem
          exact hmark (Or.inr ⟨hsne, hmem, by rw [hsw0]; simp⟩)
        rw [if_neg hsne, show (s ++ [':']) ++ (pNorm p ++
          (if qNorm q = [] then [] else '?' :: qNorm q)) = s ++ ':' ::
          (pNorm p ++ (if qNorm q = [] then [] else '?' :: qNorm q)) from by
            rw [List.append_assoc]; rfl]
        have hpar := splitCore_plain_scheme s (pNorm p) (qNorm q) hsne hsa
          hssC hsl hcs hcpn hcqn hhs hhpn hhqn (pNorm_ne_nil p) hsw0 hqpn
        rw [normalize_url_some _ s [] (pNorm p) (qNorm q) []
          (checked_of_core hpar hbr)]
        rw [pNorm_pNorm, qNorm_qNorm]
        have hmark2 : ¬(([] : List Char) ≠ [] ∨ (s ≠ [] ∧
            (⟨s⟩ : String) ∈ usesNetloc ∧
            ¬ startsWithL (pNorm p) ['/', '/'] = true)) := by
          rintro (h1 | ⟨_, hmem, _⟩)
          · exact h1 rfl
          · exact hnm hmem
        have hv2 := unsplit_plain_eq s [] (pNorm p) (qNorm q) hmark2
        rw [hv2, if_neg hsne, List.append_assoc]
        rfl

/-- C7 counterexample: `_normalize_url` is not idempotent on
`http:////x` — the first pass yields `http://x` (the `//` marker is
dropped because the netloc is empty and the path starts with `//`),
and the second pass reparses `x` as a netloc and yields `http://x/`. -/
theorem c7_counterexample :
    normalize_url (normalize_url "http:////x") ≠
      normalize_url "http:////x" := by
  decide

/-- C7 witness: a representative URL (scheme, mixed-case host, path with
a trailing slash, tracking and ordinary query parameters) in the
amended claim's domain, on which normalization is idempotent. -/
theorem c7_witness :
    normOk "https://Ex.com/a/b/?utm_source=1&q=2" = true ∧
    normalize_url (normalize_url "https://Ex.com/a/b/?utm_source=1&q=2") =
      normalize_url "https://Ex.com/a/b/?utm_source=1&q=2" :=
  ⟨by decide, c7_amended "https://Ex.com/a/b/?utm_source=1&q=2" (by decide)⟩
